import Mathlib

/-!
# Verification of the SCRU128 identifier library (go-scru128)

A shallow embedding of the SCRU128 identifier value type (`identifier.go`)
and of the generator state machine (`generator.go`), together with proofs of
the specified properties: the text / binary codecs, total ordering, the
clock-rollback policy and the monotonic-counter invariants.

Machine integers are modelled as `Nat`; `uint32` / `uint64` wrap-arounds are
made explicit with `% 2^32` / `% 2^64` at the points where the Go code can
overflow, and byte truncation `byte(x)` is `x % 256`.  A Go `[]byte` is a
`List Nat` whose entries are below 256.
-/

namespace Scru128

set_option maxRecDepth 16384

/-- Maximum value of the 24-bit counter_hi field (`scru128.go`). -/
def maxCounterHi : Nat := 0xffffff

/-- Maximum value of the 24-bit counter_lo field (`scru128.go`). -/
def maxCounterLo : Nat := 0xffffff

/-- Modelled from the spec: the constant `maxTimestamp` is referenced by
`identifier.go` and `generator.go` but its defining line is not among the
available sources; the spec fixes the timestamp domain to 48 bits
(`0 .. 2^48 - 1`), and the repository tests use `maxUint48 = (1 << 48) - 1`
for the maximal timestamp. -/
def maxTimestamp : Nat := 2 ^ 48 - 1

/-- The default timestamp rollback allowance (`generator.go`). -/
def defaultRollbackAllowance : Nat := 10000

/-- A SCRU128 ID: 16 ordered bytes (`type Id [16]byte`). -/
structure Id where
  bytes : List Nat
deriving DecidableEq, Repr

/-- Well-formedness of the byte-array representation: exactly 16 entries,
each one a byte.  In Go this is enforced by the type `[16]byte`. -/
def Id.WF (bs : Id) : Prop :=
  bs.bytes.length = 16 ∧ ∀ b ∈ bs.bytes, b < 256

instance (bs : Id) : Decidable bs.WF := by
  unfold Id.WF; infer_instance

/-- `bytesToUint64`: translates a big-endian byte sequence into an integer
(`identifier.go`): `buffer = (buffer << 8) | uint64(e)` folded over the slice. -/
def bytesToUint64 (bigEndian : List Nat) : Nat :=
  bigEndian.foldl (fun buffer e => (buffer <<< 8) ||| e) 0

/-- Big-endian numeric value of a byte list (the "128-bit unsigned integer
interpretation" when the list has 16 bytes). -/
def beVal (l : List Nat) : Nat := Nat.ofDigits 256 l.reverse

/-- The 128-bit unsigned integer interpretation of an ID. -/
def idVal (bs : Id) : Nat := beVal bs.bytes

/-- `FromFields` (`identifier.go`): builds the 16-byte array from the four
field values, or panics (`none`) if a field is out of range.  Each byte is a
Go `byte(x >> k)` truncation. -/
def FromFields (timestamp counterHi counterLo entropy : Nat) : Option Id :=
  if timestamp > maxTimestamp ∨ counterHi > maxCounterHi ∨ counterLo > maxCounterLo then
    none
  else
    some ⟨[(timestamp >>> 40) % 256,
           (timestamp >>> 32) % 256,
           (timestamp >>> 24) % 256,
           (timestamp >>> 16) % 256,
           (timestamp >>> 8) % 256,
           timestamp % 256,
           (counterHi >>> 16) % 256,
           (counterHi >>> 8) % 256,
           counterHi % 256,
           (counterLo >>> 16) % 256,
           (counterLo >>> 8) % 256,
           counterLo % 256,
           (entropy >>> 24) % 256,
           (entropy >>> 16) % 256,
           (entropy >>> 8) % 256,
           entropy % 256]⟩

/-- `Id.Timestamp` (`identifier.go`): the 48-bit timestamp field,
`bytesToUint64(bs[0:6])`. -/
def Id.Timestamp (bs : Id) : Nat := bytesToUint64 (bs.bytes.take 6)

/-- `Id.CounterHi` (`identifier.go`): the 24-bit counter_hi field,
`uint32(bytesToUint64(bs[6:9]))`. -/
def Id.CounterHi (bs : Id) : Nat := bytesToUint64 ((bs.bytes.drop 6).take 3) % 2 ^ 32

/-- `Id.CounterLo` (`identifier.go`): the 24-bit counter_lo field,
`uint32(bytesToUint64(bs[9:12]))`. -/
def Id.CounterLo (bs : Id) : Nat := bytesToUint64 ((bs.bytes.drop 9).take 3) % 2 ^ 32

/-- `Id.Entropy` (`identifier.go`): the 32-bit entropy field,
`uint32(bytesToUint64(bs[12:16]))`. -/
def Id.Entropy (bs : Id) : Nat := bytesToUint64 ((bs.bytes.drop 12).take 4) % 2 ^ 32

/-- Go's `bytes.Compare`: lexicographic byte-wise comparison returning
-1, 0 or 1. -/
def bytesCompare : List Nat → List Nat → Int
  | [], [] => 0
  | [], _ :: _ => -1
  | _ :: _, [] => 1
  | a :: as, b :: bs => if a < b then -1 else if b < a then 1 else bytesCompare as bs

/-- `Id.Cmp` (`identifier.go`): `bytes.Compare(bs[:], other[:])`. -/
def Id.Cmp (bs other : Id) : Int := bytesCompare bs.bytes other.bytes

/-- `Id.MarshalBinary` (`identifier.go`): returns the 16 bytes. -/
def Id.MarshalBinary (bs : Id) : List Nat := bs.bytes

/-!
## Value lemmas for the byte machinery
-/

theorem beVal_nil : beVal [] = 0 := rfl

theorem beVal_append (a b : List Nat) :
    beVal (a ++ b) = beVal a * 256 ^ b.length + beVal b := by
  unfold beVal
  rw [List.reverse_append, Nat.ofDigits_append, List.length_reverse]
  ring

theorem beVal_cons (x : Nat) (l : List Nat) :
    beVal (x :: l) = x * 256 ^ l.length + beVal l := by
  have h : x :: l = [x] ++ l := rfl
  rw [h, beVal_append]
  simp [beVal, Nat.ofDigits]

theorem beVal_lt (l : List Nat) (h : ∀ b ∈ l, b < 256) :
    beVal l < 256 ^ l.length := by
  unfold beVal
  have := Nat.ofDigits_lt_base_pow_length (b := 256) (l := l.reverse) (by norm_num)
    (fun x hx => h x (List.mem_reverse.mp hx))
  simpa using this

/-- A shift-or fold over bytes computes the big-endian value. -/
theorem foldl_shiftLeft_or (l : List Nat) (h : ∀ b ∈ l, b < 256) (a : Nat) :
    l.foldl (fun buffer e => (buffer <<< 8) ||| e) a = a * 256 ^ l.length + beVal l := by
  induction l generalizing a with
  | nil => simp [beVal_nil]
  | cons x xs ih =>
    have hx : x < 256 := h x (by simp)
    have hstep : (a <<< 8) ||| x = a * 256 + x := by
      have h2 := Nat.mul_add_lt_is_or (i := 8) (b := x) (by omega) a
      rw [Nat.shiftLeft_eq, Nat.mul_comm a (2 ^ 8)]
      omega
    simp only [List.foldl_cons, hstep]
    rw [ih (fun b hb => h b (by simp [hb]))]
    rw [beVal_cons]
    simp [List.length_cons]
    ring

theorem bytesToUint64_eq_beVal (l : List Nat) (h : ∀ b ∈ l, b < 256) :
    bytesToUint64 l = beVal l := by
  unfold bytesToUint64
  rw [foldl_shiftLeft_or l h 0]
  simp

/-!
## Byte decomposition of the field layout
-/

/-- The `m` big-endian bytes of `n` (lowest `8*m` bits). -/
def natBytesBE : Nat → Nat → List Nat
  | 0, _ => []
  | m + 1, n => ((n >>> (8 * m)) % 256) :: natBytesBE m n

theorem length_natBytesBE (m n : Nat) : (natBytesBE m n).length = m := by
  induction m with
  | zero => rfl
  | succ m ih => simp [natBytesBE, ih]

theorem mem_natBytesBE_lt (m n : Nat) : ∀ b ∈ natBytesBE m n, b < 256 := by
  induction m with
  | zero => simp [natBytesBE]
  | succ m ih =>
    intro b hb
    simp only [natBytesBE, List.mem_cons] at hb
    rcases hb with h | h
    · omega
    · exact ih b h

theorem beVal_natBytesBE (m n : Nat) : beVal (natBytesBE m n) = n % 2 ^ (8 * m) := by
  induction m with
  | zero => simp [natBytesBE, beVal_nil, Nat.mod_one]
  | succ m ih =>
    rw [natBytesBE, beVal_cons, length_natBytesBE, ih]
    have h1 : (2 : Nat) ^ (8 * (m + 1)) = 2 ^ (8 * m) * 256 := by
      rw [Nat.mul_succ, Nat.pow_add]
    have h2 : n % (2 ^ (8 * m) * 256) = n % 2 ^ (8 * m) + 2 ^ (8 * m) * (n / 2 ^ (8 * m) % 256) :=
      Nat.mod_mul
    rw [h1, h2, Nat.shiftRight_eq_div_pow]
    have h3 : (256 : Nat) ^ m = 2 ^ (8 * m) := by
      rw [Nat.pow_mul]
    rw [h3]
    ring

/-- The byte layout produced by `FromFields` is the concatenation of the
big-endian bytes of the four fields. -/
theorem FromFields_eq_some (t h l e : Nat)
    (h1 : t ≤ maxTimestamp) (h2 : h ≤ maxCounterHi) (h3 : l ≤ maxCounterLo) :
    FromFields t h l e =
      some ⟨natBytesBE 6 t ++ (natBytesBE 3 h ++ (natBytesBE 3 l ++ natBytesBE 4 e))⟩ := by
  unfold FromFields
  rw [if_neg (by omega)]
  simp [natBytesBE]

theorem FromFields_isSome_iff (t h l e : Nat) :
    (FromFields t h l e).isSome = true ↔
      t ≤ maxTimestamp ∧ h ≤ maxCounterHi ∧ l ≤ maxCounterLo := by
  unfold FromFields
  by_cases hc : t > maxTimestamp ∨ h > maxCounterHi ∨ l > maxCounterLo
  · rw [if_pos hc]; simp; omega
  · rw [if_neg hc]; simp; omega

theorem FromFields_WF (t h l e : Nat) (id : Id) (heq : FromFields t h l e = some id) :
    id.WF := by
  unfold FromFields at heq
  by_cases hc : t > maxTimestamp ∨ h > maxCounterHi ∨ l > maxCounterLo
  · rw [if_pos hc] at heq; cases heq
  · rw [if_neg hc] at heq
    cases heq
    constructor
    · rfl
    · intro b hb
      simp only [List.mem_cons, List.not_mem_nil, or_false] at hb
      rcases hb with h|h|h|h|h|h|h|h|h|h|h|h|h|h|h|h <;> omega

theorem idVal_FromFields (t h l e : Nat)
    (h1 : t ≤ maxTimestamp) (h2 : h ≤ maxCounterHi) (h3 : l ≤ maxCounterLo)
    (h4 : e < 2 ^ 32) (id : Id) (heq : FromFields t h l e = some id) :
    idVal id = ((t * 2 ^ 24 + h) * 2 ^ 24 + l) * 2 ^ 32 + e := by
  rw [FromFields_eq_some t h l e h1 h2 h3] at heq
  cases heq
  unfold idVal
  simp only
  rw [beVal_append, beVal_append, beVal_append]
  simp only [List.length_append, length_natBytesBE, beVal_natBytesBE]
  have e1 : t % 2 ^ (8 * 6) = t := Nat.mod_eq_of_lt (by unfold maxTimestamp at h1; omega)
  have e2 : h % 2 ^ (8 * 3) = h := Nat.mod_eq_of_lt (by unfold maxCounterHi at h2; omega)
  have e3 : l % 2 ^ (8 * 3) = l := Nat.mod_eq_of_lt (by unfold maxCounterLo at h3; omega)
  have e4 : e % 2 ^ (8 * 4) = e := Nat.mod_eq_of_lt (by omega)
  rw [e1, e2, e3, e4]
  norm_num
  ring

/-!
## Accessors recover the fields
-/

theorem Timestamp_FromFields (t h l e : Nat)
    (h1 : t ≤ maxTimestamp) (h2 : h ≤ maxCounterHi) (h3 : l ≤ maxCounterLo)
    (id : Id) (heq : FromFields t h l e = some id) :
    id.Timestamp = t := by
  rw [FromFields_eq_some t h l e h1 h2 h3] at heq
  cases heq
  unfold Id.Timestamp
  simp only
  rw [List.take_left' (length_natBytesBE 6 t),
    bytesToUint64_eq_beVal _ (mem_natBytesBE_lt 6 t), beVal_natBytesBE]
  exact Nat.mod_eq_of_lt (by unfold maxTimestamp at h1; omega)

theorem CounterHi_FromFields (t h l e : Nat)
    (h1 : t ≤ maxTimestamp) (h2 : h ≤ maxCounterHi) (h3 : l ≤ maxCounterLo)
    (id : Id) (heq : FromFields t h l e = some id) :
    id.CounterHi = h := by
  rw [FromFields_eq_some t h l e h1 h2 h3] at heq
  cases heq
  unfold Id.CounterHi
  simp only
  rw [List.drop_left' (length_natBytesBE 6 t), List.take_left' (length_natBytesBE 3 h),
    bytesToUint64_eq_beVal _ (mem_natBytesBE_lt 3 h), beVal_natBytesBE]
  have hlt : h % 2 ^ (8 * 3) = h := Nat.mod_eq_of_lt (by unfold maxCounterHi at h2; omega)
  rw [hlt]
  exact Nat.mod_eq_of_lt (by unfold maxCounterHi at h2; omega)

theorem CounterLo_FromFields (t h l e : Nat)
    (h1 : t ≤ maxTimestamp) (h2 : h ≤ maxCounterHi) (h3 : l ≤ maxCounterLo)
    (id : Id) (heq : FromFields t h l e = some id) :
    id.CounterLo = l := by
  rw [FromFields_eq_some t h l e h1 h2 h3] at heq
  cases heq
  unfold Id.CounterLo
  simp only
  have h9 : (9 : Nat) = 6 + 3 := by norm_num
  rw [h9, ← List.drop_drop, List.drop_left' (length_natBytesBE 6 t),
    List.drop_left' (length_natBytesBE 3 h), List.take_left' (length_natBytesBE 3 l),
    bytesToUint64_eq_beVal _ (mem_natBytesBE_lt 3 l), beVal_natBytesBE]
  have hlt : l % 2 ^ (8 * 3) = l := Nat.mod_eq_of_lt (by unfold maxCounterLo at h3; omega)
  rw [hlt]
  exact Nat.mod_eq_of_lt (by unfold maxCounterLo at h3; omega)

theorem Entropy_FromFields (t h l e : Nat)
    (h1 : t ≤ maxTimestamp) (h2 : h ≤ maxCounterHi) (h3 : l ≤ maxCounterLo)
    (h4 : e < 2 ^ 32)
    (id : Id) (heq : FromFields t h l e = some id) :
    id.Entropy = e := by
  rw [FromFields_eq_some t h l e h1 h2 h3] at heq
  cases heq
  unfold Id.Entropy
  simp only
  have h12 : (12 : Nat) = 6 + 3 + 3 := by norm_num
  rw [h12, ← List.drop_drop, ← List.drop_drop, List.drop_left' (length_natBytesBE 6 t),
    List.drop_left' (length_natBytesBE 3 h), List.drop_left' (length_natBytesBE 3 l),
    List.take_of_length_le (by rw [length_natBytesBE]),
    bytesToUint64_eq_beVal _ (mem_natBytesBE_lt 4 e), beVal_natBytesBE]
  have hlt : e % 2 ^ (8 * 4) = e := Nat.mod_eq_of_lt (by omega)
  rw [hlt]
  exact Nat.mod_eq_of_lt (by omega)

/-!
## Byte-wise comparison agrees with numeric comparison
-/

theorem beVal_cons_lt_of_head_lt {x y : Nat} {as bs : List Nat}
    (hlen : as.length = bs.length) (ha : ∀ v ∈ as, v < 256) (hxy : x < y) :
    beVal (x :: as) < beVal (y :: bs) := by
  rw [beVal_cons, beVal_cons, hlen]
  have h1 : beVal as < 256 ^ bs.length := hlen ▸ beVal_lt as ha
  have h2 : (x + 1) * 256 ^ bs.length ≤ y * 256 ^ bs.length :=
    Nat.mul_le_mul_right _ (by omega)
  have h3 : beVal bs ≥ 0 := Nat.zero_le _
  nlinarith [pow_pos (show (0:Nat) < 256 by norm_num) bs.length]

theorem bytesCompare_spec (a b : List Nat) (hlen : a.length = b.length)
    (ha : ∀ x ∈ a, x < 256) (hb : ∀ x ∈ b, x < 256) :
    bytesCompare a b =
      (if beVal a < beVal b then -1 else if beVal b < beVal a then 1 else 0) := by
  induction a generalizing b with
  | nil =>
    cases b with
    | nil => simp [bytesCompare]
    | cons y ys => simp at hlen
  | cons x xs ih =>
    cases b with
    | nil => simp at hlen
    | cons y ys =>
      simp only [List.length_cons, Nat.succ.injEq] at hlen
      have hxs : ∀ v ∈ xs, v < 256 := fun v hv => ha v (by simp [hv])
      have hys : ∀ v ∈ ys, v < 256 := fun v hv => hb v (by simp [hv])
      unfold bytesCompare
      by_cases hlt : x < y
      · rw [if_pos hlt, if_pos (beVal_cons_lt_of_head_lt hlen hxs hlt)]
      · rw [if_neg hlt]
        by_cases hgt : y < x
        · rw [if_pos hgt, if_neg (by
            have := beVal_cons_lt_of_head_lt hlen.symm hys hgt
            omega), if_pos (beVal_cons_lt_of_head_lt hlen.symm hys hgt)]
        · have hxy : x = y := by omega
          subst hxy
          rw [if_neg (lt_irrefl x)]
          rw [ih ys hlen hxs hys]
          rw [beVal_cons, beVal_cons, hlen]
          simp only [Nat.add_lt_add_iff_left]

theorem beVal_inj (a b : List Nat) (hlen : a.length = b.length)
    (ha : ∀ x ∈ a, x < 256) (hb : ∀ x ∈ b, x < 256)
    (h : beVal a = beVal b) : a = b := by
  induction a generalizing b with
  | nil => cases b with
    | nil => rfl
    | cons y ys => simp at hlen
  | cons x xs ih =>
    cases b with
    | nil => simp at hlen
    | cons y ys =>
      simp only [List.length_cons, Nat.succ.injEq] at hlen
      have hxs : ∀ v ∈ xs, v < 256 := fun v hv => ha v (by simp [hv])
      have hys : ∀ v ∈ ys, v < 256 := fun v hv => hb v (by simp [hv])
      have hxy : x = y := by
        by_contra hne
        rcases Nat.lt_or_ge x y with hlt | hge
        · exact absurd h (Nat.ne_of_lt (beVal_cons_lt_of_head_lt hlen hxs hlt))
        · have hgt : y < x := by omega
          exact absurd h.symm (Nat.ne_of_lt (beVal_cons_lt_of_head_lt hlen.symm hys hgt))
      subst hxy
      rw [beVal_cons, beVal_cons, hlen] at h
      have : beVal xs = beVal ys := by omega
      rw [ih ys hlen hxs hys this]

/-- Bytewise comparison under a strictly monotone digit remapping is
unchanged (used to transfer text order to digit-value order). -/
theorem bytesCompare_map_strictMono (f : Nat → Nat) (bound : Nat)
    (hf : ∀ i j, i < j → j < bound → f i < f j) :
    ∀ (a b : List Nat), (∀ x ∈ a, x < bound) → (∀ x ∈ b, x < bound) →
      bytesCompare (a.map f) (b.map f) = bytesCompare a b := by
  intro a
  induction a with
  | nil => intro b _ _; cases b <;> simp [bytesCompare]
  | cons x xs ih =>
    intro b ha hb
    cases b with
    | nil => simp [bytesCompare]
    | cons y ys =>
      have hx : x < bound := ha x (by simp)
      have hy : y < bound := hb y (by simp)
      simp only [List.map_cons]
      unfold bytesCompare
      by_cases hlt : x < y
      · rw [if_pos hlt, if_pos (hf x y hlt hy)]
      · rw [if_neg hlt]
        by_cases hgt : y < x
        · rw [if_pos hgt, if_neg (by
            have := hf y x hgt hx
            omega), if_pos (hf y x hgt hx)]
        · have hxy : x = y := by omega
          subst hxy
          simp only [if_neg (lt_irrefl x), if_neg (lt_irrefl (f x))]
          exact ih ys (fun v hv => ha v (by simp [hv])) (fun v hv => hb v (by simp [hv]))


/-!
## The Base36 text codec
-/

/-- Digit characters used in the Base36 notation (`identifier.go`):
the ASCII codes of `"0123456789ABCDEFGHIJKLMNOPQRSTUVWXYZ"`. -/
def digits : List Nat :=
  [48, 49, 50, 51, 52, 53, 54, 55, 56, 57, 65, 66, 67, 68, 69, 70, 71, 72, 73, 74, 75, 76, 77, 78, 79, 80, 81, 82, 83, 84, 85, 86, 87, 88, 89, 90]

/-- An O(1) map from ASCII code points to Base36 digit values
(`identifier.go`), `0xff = 255` marking an invalid code point. -/
def decodeMap : List Nat := [
    255, 255, 255, 255, 255, 255, 255, 255, 255, 255, 255, 255, 255,
    255, 255, 255, 255, 255, 255, 255, 255, 255, 255, 255, 255, 255,
    255, 255, 255, 255, 255, 255, 255, 255, 255, 255, 255, 255, 255,
    255, 255, 255, 255, 255, 255, 255, 255, 255, 0, 1, 2, 3,
    4, 5, 6, 7, 8, 9, 255, 255, 255, 255, 255, 255, 255,
    10, 11, 12, 13, 14, 15, 16, 17, 18, 19, 20, 21, 22,
    23, 24, 25, 26, 27, 28, 29, 30, 31, 32, 33, 34, 35,
    255, 255, 255, 255, 255, 255, 10, 11, 12, 13, 14, 15, 16,
    17, 18, 19, 20, 21, 22, 23, 24, 25, 26, 27, 28, 29,
    30, 31, 32, 33, 34, 35, 255, 255, 255, 255, 255, 255, 255,
    255, 255, 255, 255, 255, 255, 255, 255, 255, 255, 255, 255, 255,
    255, 255, 255, 255, 255, 255, 255, 255, 255, 255, 255, 255, 255,
    255, 255, 255, 255, 255, 255, 255, 255, 255, 255, 255, 255, 255,
    255, 255, 255, 255, 255, 255, 255, 255, 255, 255, 255, 255, 255,
    255, 255, 255, 255, 255, 255, 255, 255, 255, 255, 255, 255, 255,
    255, 255, 255, 255, 255, 255, 255, 255, 255, 255, 255, 255, 255,
    255, 255, 255, 255, 255, 255, 255, 255, 255, 255, 255, 255, 255,
    255, 255, 255, 255, 255, 255, 255, 255, 255, 255, 255, 255, 255,
    255, 255, 255, 255, 255, 255, 255, 255, 255, 255, 255, 255, 255,
    255, 255, 255, 255, 255, 255, 255, 255, 255]

/-- One output pass of `MarshalText`: starting at index `j = jp - 1` and
walking left, `carry += text[j] << 56; text[j] = carry %% 36; carry /= 36`,
while `carry > 0 || j > minIndex` (with `minIdxP = minIndex + 1`; the Go
loop indexes with `j = jp - 1`, and for any value in the 128-bit domain the
loop never falls off the left end, so the `jp = 0` case is unreachable with
pending carry). -/
def marshalPass (minIdxP : Nat) : Nat → Nat → List Nat → List Nat × Nat
  | _, 0, text => (text, 0)
  | carry, j + 1, text =>
    if carry > 0 ∨ j + 1 > minIdxP then
      marshalPass minIdxP ((carry + (text.getD j 0) <<< 56) / 36) j
        (text.set j ((carry + (text.getD j 0) <<< 56) % 36))
    else (text, j + 1)

/-- The 25 Base36 digit values of an ID as computed by `MarshalText`
(`identifier.go`): three 56-bit words (`bs[0:2]`, `bs[2:9]`, `bs[9:16]`)
folded into the output from right to left. -/
def marshalDigits (bs : Id) : List Nat :=
  let t0 := List.replicate 25 0
  let r1 := marshalPass 100 (bytesToUint64 (bs.bytes.take 2)) 25 t0
  let r2 := marshalPass r1.2 (bytesToUint64 ((bs.bytes.drop 2).take 7)) 25 r1.1
  let r3 := marshalPass r2.2 (bytesToUint64 ((bs.bytes.drop 9).take 7)) 25 r2.1
  r3.1

/-- `Id.MarshalText` (`identifier.go`): the 25-character canonical text,
as a byte string of ASCII codes. -/
def Id.MarshalText (bs : Id) : List Nat :=
  (marshalDigits bs).map fun e => digits.getD e 0

/-- `Id.String` (`identifier.go`): the canonical string representation,
i.e. `MarshalText`. -/
def Id.String (bs : Id) : List Nat := bs.MarshalText

/-- One input pass of `UnmarshalText`: starting at index `j = jp - 1` and
walking left, `carry += bs[j] * 36^10; bs[j] = byte(carry); carry >>= 8`,
while `carry > 0 || j > minIndex`; reaching the left end with the loop
still active (`j < 0` in Go) reports "out of 128-bit value range". -/
def unmarshalPass (minIdxP : Nat) : Nat → Nat → List Nat → Option (List Nat × Nat)
  | carry, 0, bsl => if carry > 0 then none else some (bsl, 0)
  | carry, j + 1, bsl =>
    if carry > 0 ∨ j + 1 > minIdxP then
      unmarshalPass minIdxP ((carry + (bsl.getD j 0) * 3656158440062976) >>> 8) j
        (bsl.set j ((carry + (bsl.getD j 0) * 3656158440062976) % 256))
    else some (bsl, j + 1)

/-- `Id.UnmarshalText` (`identifier.go`): length and digit validation, then
three word passes (digit groups `src[0:5]`, `src[5:15]`, `src[15:25]`)
multiplied into the 16-byte accumulator with radix `36^10`. -/
def Id.UnmarshalText (text : List Nat) : Option Id :=
  if text.length ≠ 25 then none
  else
    let src := text.map fun e => decodeMap.getD e 255
    if 255 ∈ src then none
    else
      let w1 := (src.take 5).foldl (fun carry e => carry * 36 + e) 0
      let w2 := ((src.drop 5).take 10).foldl (fun carry e => carry * 36 + e) 0
      let w3 := ((src.drop 15).take 10).foldl (fun carry e => carry * 36 + e) 0
      match unmarshalPass 100 w1 16 (List.replicate 16 0) with
      | none => none
      | some r1 =>
        match unmarshalPass r1.2 w2 16 r1.1 with
        | none => none
        | some r2 =>
          match unmarshalPass r2.2 w3 16 r2.1 with
          | none => none
          | some r3 => some ⟨r3.1⟩

/-- `Parse` (`identifier.go`): parse the 25-digit string representation. -/
def Parse (strValue : List Nat) : Option Id := Id.UnmarshalText strValue

/-- `Id.UnmarshalBinary` (`identifier.go`): a 16-byte slice is copied
verbatim; any other length is re-tried as textual representation. -/
def Id.UnmarshalBinary (data : List Nat) : Option Id :=
  if data.length = 16 then some ⟨data⟩ else Id.UnmarshalText data

/-!
## Chunked carry propagation: the uniform core of both codec loops
-/

/-- Digits (least-significant first) produced by merging a word `c` into a
digit string via repeated division: the uniform right-to-left computation
performed by the codec passes. -/
def chunkCarry (base mult : Nat) : Nat → List Nat → List Nat
  | _, [] => []
  | c, d :: rest => ((c + d * mult) % base) :: chunkCarry base mult ((c + d * mult) / base) rest

/-- The carry left over after `chunkCarry` has consumed the whole string. -/
def chunkRem (base mult : Nat) : Nat → List Nat → Nat
  | c, [] => c
  | c, d :: rest => chunkRem base mult ((c + d * mult) / base) rest

theorem chunkCarry_length (base mult c : Nat) (l : List Nat) :
    (chunkCarry base mult c l).length = l.length := by
  induction l generalizing c with
  | nil => rfl
  | cons d rest ih => simp [chunkCarry, ih]

theorem chunkCarry_lt (base mult c : Nat) (l : List Nat) (hb : 0 < base) :
    ∀ x ∈ chunkCarry base mult c l, x < base := by
  induction l generalizing c with
  | nil => simp [chunkCarry]
  | cons d rest ih =>
    intro x hx
    simp only [chunkCarry, List.mem_cons] at hx
    rcases hx with h | h
    · subst h; exact Nat.mod_lt _ hb
    · exact ih _ x h

theorem chunkCarry_value (base mult c : Nat) (l : List Nat) (hb : 0 < base) :
    Nat.ofDigits base (chunkCarry base mult c l)
        + chunkRem base mult c l * base ^ l.length
      = c + mult * Nat.ofDigits base l := by
  induction l generalizing c with
  | nil => simp [chunkCarry, chunkRem, Nat.ofDigits]
  | cons d rest ih =>
    rw [chunkCarry, chunkRem, Nat.ofDigits_cons, Nat.ofDigits_cons]
    have hdm := Nat.div_add_mod (c + d * mult) base
    have hrec := ih ((c + d * mult) / base)
    push_cast at hrec ⊢
    simp only [List.length_cons]
    have hpow : (base : ℕ) ^ (rest.length + 1) = base ^ rest.length * base := by ring
    nlinarith [hrec]

theorem chunkCarry_replicate_zero (base mult : Nat) (n : Nat) :
    chunkCarry base mult 0 (List.replicate n 0) = List.replicate n 0 := by
  induction n with
  | zero => rfl
  | succ n ih => simp [List.replicate_succ, chunkCarry, ih]

theorem chunkRem_replicate_zero (base mult : Nat) (n : Nat) :
    chunkRem base mult 0 (List.replicate n 0) = 0 := by
  induction n with
  | zero => rfl
  | succ n ih => simp [List.replicate_succ, chunkRem, ih]

/-- A prefix whose entries are all zero is a replicate of zeros. -/
theorem take_eq_replicate_zero (l : List Nat) (n : Nat) (hn : n ≤ l.length)
    (hz : ∀ i, i < n → l.getD i 0 = 0) : l.take n = List.replicate n 0 := by
  rw [List.eq_replicate_iff]
  constructor
  · simp [List.length_take]; omega
  · intro b hb
    rw [List.mem_iff_getElem] at hb
    obtain ⟨i, hi, hbi⟩ := hb
    have hi2 : i < n := by
      have := hi
      simp [List.length_take] at this
      omega
    have := hz i hi2
    rw [List.getD_eq_getElem?_getD] at this
    rw [List.getElem_take] at hbi
    have hil : i < l.length := by omega
    rw [List.getElem?_eq_getElem hil] at this
    simp at this
    omega

/-!
## The output pass computes chunked base-36 conversion
-/

/-- Facts about a slice of a list whose written entry is replaced. -/
theorem take_set_self (l : List Nat) (j v : Nat) (hj : j < l.length) :
    (l.set j v).take j = l.take j := by
  rw [List.set_eq_take_cons_drop v hj,
    List.take_left' (by simp [List.length_take]; omega)]

theorem drop_set_self (l : List Nat) (j v : Nat) (hj : j < l.length) :
    (l.set j v).drop j = v :: l.drop (j + 1) := by
  rw [List.set_eq_take_cons_drop v hj,
    List.drop_left' (by simp [List.length_take]; omega)]

theorem take_succ_getD (l : List Nat) (j : Nat) (hj : j < l.length) :
    l.take (j + 1) = l.take j ++ [l.getD j 0] := by
  rw [List.take_succ, List.getElem?_eq_getElem hj]
  simp [List.getD_eq_getElem?_getD, List.getElem?_eq_getElem hj]

/-- Bridge between the literal `MarshalText` output loop (with its early
exit) and the uniform chunked conversion `chunkCarry`: the early exit only
skips positions that are still zero, so the resulting digit string is the
uniform one.  Also: every position left of the exit index is still zero. -/
theorem marshalPass_bridge (minIdxP : Nat) :
    ∀ (jp : Nat) (c : Nat) (text : List Nat), jp ≤ text.length →
    (∀ i, i < jp → i < minIdxP → text.getD i 0 = 0) →
    (marshalPass minIdxP c jp text).1
        = (chunkCarry 36 (2 ^ 56) c ((text.take jp).reverse)).reverse ++ text.drop jp
    ∧ (∀ i, i < (marshalPass minIdxP c jp text).2 →
        (marshalPass minIdxP c jp text).1.getD i 0 = 0) := by
  intro jp
  induction jp with
  | zero =>
    intro c text _ _
    constructor
    · simp [marshalPass, chunkCarry]
    · intro i hi
      simp [marshalPass] at hi
  | succ j ih =>
    intro c text hlen hz
    have hjlt : j < text.length := by omega
    by_cases hc : c > 0 ∨ j + 1 > minIdxP
    · have hstep : marshalPass minIdxP c (j + 1) text
          = marshalPass minIdxP ((c + (text.getD j 0) <<< 56) / 36) j
              (text.set j ((c + (text.getD j 0) <<< 56) % 36)) := by
        rw [marshalPass, if_pos hc]
      set d := text.getD j 0 with hd
      set v := c + d <<< 56 with hv
      have hlen2 : j ≤ (text.set j (v % 36)).length := by
        simp [List.length_set]; omega
      have hz2 : ∀ i, i < j → i < minIdxP → (text.set j (v % 36)).getD i 0 = 0 := by
        intro i hij him
        rw [List.getD_eq_getElem?_getD, List.getElem?_set_ne (by omega)]
        rw [← List.getD_eq_getElem?_getD]
        exact hz i (by omega) him
      obtain ⟨ih1, ih2⟩ := ih (v / 36) (text.set j (v % 36)) hlen2 hz2
      rw [hstep]
      constructor
      · rw [ih1, take_set_self text j _ hjlt, drop_set_self text j _ hjlt]
        rw [take_succ_getD text j hjlt, List.reverse_append]
        simp only [List.reverse_cons, List.reverse_nil, List.nil_append,
          List.singleton_append]
        rw [chunkCarry]
        have hsh : d <<< 56 = d * 2 ^ 56 := Nat.shiftLeft_eq d 56
        rw [← hd, ← hsh, ← hv]
        simp [List.reverse_cons, List.append_assoc]
      · exact ih2
    · have hstep : marshalPass minIdxP c (j + 1) text = (text, j + 1) := by
        rw [marshalPass, if_neg hc]
      push_neg at hc
      obtain ⟨hc0, hcm⟩ := hc
      have hc0' : c = 0 := by omega
      subst hc0'
      rw [hstep]
      have htake : text.take (j + 1) = List.replicate (j + 1) 0 :=
        take_eq_replicate_zero text (j + 1) (by omega)
          (fun i hi => hz i hi (by omega))
      constructor
      · simp only
        rw [htake, List.reverse_replicate, chunkCarry_replicate_zero,
          List.reverse_replicate, ← htake, List.take_append_drop]
      · intro i hi
        simp only at hi ⊢
        exact hz i hi (by omega)

theorem chunkCarry_value_of_lt (base mult c : Nat) (l : List Nat) (hb : 0 < base)
    (h : c + mult * Nat.ofDigits base l < base ^ l.length) :
    Nat.ofDigits base (chunkCarry base mult c l) = c + mult * Nat.ofDigits base l := by
  have hv := chunkCarry_value base mult c l hb
  have hrem : chunkRem base mult c l = 0 := by
    by_contra hne
    have h1 : 1 ≤ chunkRem base mult c l := Nat.one_le_iff_ne_zero.mpr hne
    have h2 : base ^ l.length ≤ chunkRem base mult c l * base ^ l.length := by
      calc base ^ l.length = 1 * base ^ l.length := by ring
        _ ≤ _ := Nat.mul_le_mul_right _ h1
    omega
  rw [hrem] at hv
  omega

/-- Auxiliary: entries of a zero list accessed through `getD` are zero. -/
theorem getD_replicate_zero (n i : Nat) : (List.replicate n (0 : Nat)).getD i 0 = 0 := by
  rw [List.getD_eq_getElem?_getD]
  by_cases hi : i < n
  · rw [List.getElem?_eq_getElem (by simpa using hi)]
    simp
  · rw [List.getElem?_eq_none (by simpa using hi)]
    rfl

theorem ofDigits_replicate_zero (b n : Nat) :
    Nat.ofDigits b (List.replicate n 0) = 0 := by
  induction n with
  | zero => rfl
  | succ n ih => simp [List.replicate_succ, Nat.ofDigits_cons, ih]

/-- The word values `bytesToUint64` of the three `MarshalText` slices,
as big-endian byte values. -/
theorem marshalDigits_spec (bs : Id) (h : bs.WF) :
    (marshalDigits bs).length = 25
    ∧ (∀ x ∈ marshalDigits bs, x < 36)
    ∧ Nat.ofDigits 36 (marshalDigits bs).reverse = idVal bs := by
  obtain ⟨hlen, hbyte⟩ := h
  -- the three words and their values
  set B := bs.bytes with hB
  have hmem1 : ∀ b ∈ B.take 2, b < 256 := fun b hb => hbyte b (List.take_subset _ _ hb)
  have hmem2 : ∀ b ∈ (B.drop 2).take 7, b < 256 :=
    fun b hb => hbyte b (List.drop_subset _ _ (List.take_subset _ _ hb))
  have hmem3 : ∀ b ∈ (B.drop 9).take 7, b < 256 :=
    fun b hb => hbyte b (List.drop_subset _ _ (List.take_subset _ _ hb))
  set c1 := bytesToUint64 (B.take 2) with hc1
  set c2 := bytesToUint64 ((B.drop 2).take 7) with hc2
  set c3 := bytesToUint64 ((B.drop 9).take 7) with hc3
  have hv1 : c1 = beVal (B.take 2) := bytesToUint64_eq_beVal _ hmem1
  have hv2 : c2 = beVal ((B.drop 2).take 7) := bytesToUint64_eq_beVal _ hmem2
  have hv3 : c3 = beVal ((B.drop 9).take 7) := bytesToUint64_eq_beVal _ hmem3
  have hlen1 : (B.take 2).length = 2 := by simp [List.length_take, hlen]
  have hlen2 : ((B.drop 2).take 7).length = 7 := by simp [List.length_take, hlen]
  have hlen3 : ((B.drop 9).take 7).length = 7 := by simp [List.length_take, hlen]
  have hb1 : c1 < 2 ^ 16 := by
    have := beVal_lt _ hmem1
    rw [hlen1] at this
    rw [hv1]
    norm_num at this ⊢
    omega
  have hb2 : c2 < 2 ^ 56 := by
    have := beVal_lt _ hmem2
    rw [hlen2] at this
    rw [hv2]
    norm_num at this ⊢
    omega
  have hb3 : c3 < 2 ^ 56 := by
    have := beVal_lt _ hmem3
    rw [hlen3] at this
    rw [hv3]
    norm_num at this ⊢
    omega
  -- the value of the full byte array in terms of the three words
  have hsplit : idVal bs = (c1 * 2 ^ 56 + c2) * 2 ^ 56 + c3 := by
    have h9 : B.drop 9 = (B.drop 2).drop 7 := by
      rw [List.drop_drop]
    have ht3 : (B.drop 9).take 7 = B.drop 9 := by
      apply List.take_of_length_le
      simp [hlen]
    have hd2 : B.drop 2 = (B.drop 2).take 7 ++ B.drop 9 := by
      rw [h9, List.take_append_drop]
    have hall : B = B.take 2 ++ ((B.drop 2).take 7 ++ B.drop 9) := by
      rw [← hd2, List.take_append_drop]
    unfold idVal
    rw [← hB, hall, beVal_append, beVal_append]
    rw [List.length_append, hlen2]
    have hlen9 : (B.drop 9).length = 7 := by simp [hlen]
    rw [hlen9, ← hv1, ← hv2, ← ht3, ← hv3]
    norm_num
    ring
  -- pass 1
  unfold marshalDigits
  simp only [← hB, ← hc1, ← hc2, ← hc3]
  have hz0 : ∀ i, i < 25 → i < 100 → (List.replicate 25 (0:Nat)).getD i 0 = 0 :=
    fun i _ _ => getD_replicate_zero 25 i
  obtain ⟨hp1, hq1⟩ := marshalPass_bridge 100 25 c1 (List.replicate 25 0)
    (by simp) hz0
  set r1 := marshalPass 100 c1 25 (List.replicate 25 0) with hr1
  have ht1 : (List.replicate 25 (0:Nat)).take 25 = List.replicate 25 0 :=
    List.take_of_length_le (by simp)
  have hd1 : (List.replicate 25 (0:Nat)).drop 25 = [] := by simp
  rw [ht1, hd1, List.reverse_replicate, List.append_nil] at hp1
  have hval1 : Nat.ofDigits 36 r1.1.reverse = c1 := by
    rw [hp1, List.reverse_reverse]
    have hz : Nat.ofDigits 36 (List.replicate 25 0) = 0 := ofDigits_replicate_zero 36 25
    have hbnd : c1 + 2 ^ 56 * Nat.ofDigits 36 (List.replicate 25 0)
        < 36 ^ (List.replicate 25 (0:Nat)).length := by
      rw [hz]
      simp only [List.length_replicate]
      omega
    have := chunkCarry_value_of_lt 36 (2 ^ 56) c1 (List.replicate 25 0) (by norm_num) hbnd
    rw [this, hz]
    omega
  have hlen1' : r1.1.length = 25 := by
    rw [hp1]
    simp [chunkCarry_length]
  have hlt1 : ∀ x ∈ r1.1, x < 36 := by
    rw [hp1]
    intro x hx
    exact chunkCarry_lt 36 (2 ^ 56) c1 _ (by norm_num) x (List.mem_reverse.mp hx)
  -- pass 2
  obtain ⟨hp2, hq2⟩ := marshalPass_bridge r1.2 25 c2 r1.1 (by omega) 
    (fun i _ him => hq1 i him)
  set r2 := marshalPass r1.2 c2 25 r1.1 with hr2
  have ht2 : r1.1.take 25 = r1.1 := List.take_of_length_le (by omega)
  have hd2' : r1.1.drop 25 = [] := by
    apply List.drop_eq_nil_of_le
    omega
  rw [ht2, hd2', List.append_nil] at hp2
  have hval2 : Nat.ofDigits 36 r2.1.reverse = c2 + 2 ^ 56 * c1 := by
    rw [hp2, List.reverse_reverse]
    have hlenrev : r1.1.reverse.length = 25 := by simp [hlen1']
    have hbound : c2 + 2 ^ 56 * Nat.ofDigits 36 r1.1.reverse < 36 ^ r1.1.reverse.length := by
      rw [hval1, hlenrev]
      omega
    have := chunkCarry_value_of_lt 36 (2 ^ 56) c2 r1.1.reverse (by norm_num) hbound
    rw [this, hval1]
  have hlen2' : r2.1.length = 25 := by
    rw [hp2]
    simp [chunkCarry_length, hlen1']
  have hlt2 : ∀ x ∈ r2.1, x < 36 := by
    rw [hp2]
    intro x hx
    exact chunkCarry_lt 36 (2 ^ 56) c2 _ (by norm_num) x (List.mem_reverse.mp hx)
  -- pass 3
  obtain ⟨hp3, hq3⟩ := marshalPass_bridge r2.2 25 c3 r2.1 (by omega)
    (fun i _ him => hq2 i him)
  set r3 := marshalPass r2.2 c3 25 r2.1 with hr3
  have ht3' : r2.1.take 25 = r2.1 := List.take_of_length_le (by omega)
  have hd3' : r2.1.drop 25 = [] := by
    apply List.drop_eq_nil_of_le
    omega
  rw [ht3', hd3', List.append_nil] at hp3
  have hval3 : Nat.ofDigits 36 r3.1.reverse = c3 + 2 ^ 56 * (c2 + 2 ^ 56 * c1) := by
    rw [hp3, List.reverse_reverse]
    have hlenrev : r2.1.reverse.length = 25 := by simp [hlen2']
    have hbound : c3 + 2 ^ 56 * Nat.ofDigits 36 r2.1.reverse < 36 ^ r2.1.reverse.length := by
      rw [hval2, hlenrev]
      omega
    have := chunkCarry_value_of_lt 36 (2 ^ 56) c3 r2.1.reverse (by norm_num) hbound
    rw [this, hval2]
  have hlen3' : r3.1.length = 25 := by
    rw [hp3]
    simp [chunkCarry_length, hlen2']
  have hlt3 : ∀ x ∈ r3.1, x < 36 := by
    rw [hp3]
    intro x hx
    exact chunkCarry_lt 36 (2 ^ 56) c3 _ (by norm_num) x (List.mem_reverse.mp hx)
  refine ⟨hlen3', hlt3, ?_⟩
  rw [hval3, hsplit]
  ring

/-!
## The input pass computes chunked base-256 conversion with overflow check
-/

/-- Bridge between the literal `UnmarshalText` input loop and the uniform
chunked conversion: the loop errors out exactly when the leftover carry
cannot fit (`out of 128-bit value range`), and otherwise produces the
uniform digit string. -/
theorem unmarshalPass_bridge (minIdxP : Nat) :
    ∀ (jp c : Nat) (bsl : List Nat), jp ≤ bsl.length →
    (∀ i, i < jp → i < minIdxP → bsl.getD i 0 = 0) →
    (unmarshalPass minIdxP c jp bsl = none
        ↔ 0 < chunkRem 256 3656158440062976 c ((bsl.take jp).reverse))
    ∧ ∀ out, unmarshalPass minIdxP c jp bsl = some out →
        out.1 = (chunkCarry 256 3656158440062976 c ((bsl.take jp).reverse)).reverse
            ++ bsl.drop jp
        ∧ (∀ i, i < out.2 → out.1.getD i 0 = 0) := by
  intro jp
  induction jp with
  | zero =>
    intro c bsl _ _
    constructor
    · by_cases hc : c > 0
      · simp [unmarshalPass, if_pos hc, chunkRem]
        omega
      · simp [unmarshalPass, if_neg hc, chunkRem]
        omega
    · intro out hout
      by_cases hc : c > 0
      · simp [unmarshalPass, if_pos hc] at hout
      · simp [unmarshalPass, if_neg hc] at hout
        constructor
        · simp [← hout, chunkCarry]
        · intro i hi
          rw [← hout] at hi
          simp at hi
  | succ j ih =>
    intro c bsl hlen hz
    have hjlt : j < bsl.length := by omega
    by_cases hc : c > 0 ∨ j + 1 > minIdxP
    · have hstep : unmarshalPass minIdxP c (j + 1) bsl
          = unmarshalPass minIdxP ((c + (bsl.getD j 0) * 3656158440062976) >>> 8) j
              (bsl.set j ((c + (bsl.getD j 0) * 3656158440062976) % 256)) := by
        rw [unmarshalPass, if_pos hc]
      set d := bsl.getD j 0 with hd
      set v := c + d * 3656158440062976 with hv
      have hlen2 : j ≤ (bsl.set j (v % 256)).length := by
        simp [List.length_set]; omega
      have hz2 : ∀ i, i < j → i < minIdxP → (bsl.set j (v % 256)).getD i 0 = 0 := by
        intro i hij him
        rw [List.getD_eq_getElem?_getD, List.getElem?_set_ne (by omega)]
        rw [← List.getD_eq_getElem?_getD]
        exact hz i (by omega) him
      obtain ⟨ih1, ih2⟩ := ih (v >>> 8) (bsl.set j (v % 256)) hlen2 hz2
      have hsh : v >>> 8 = v / 256 := by
        rw [Nat.shiftRight_eq_div_pow]
      have htake : ((bsl.set j (v % 256)).take j).reverse = (bsl.take j).reverse := by
        rw [take_set_self bsl j _ hjlt]
      have hchunk : chunkCarry 256 3656158440062976 c ((bsl.take (j+1)).reverse)
          = (v % 256) :: chunkCarry 256 3656158440062976 (v / 256) ((bsl.take j).reverse) := by
        rw [take_succ_getD bsl j hjlt, List.reverse_append]
        simp only [List.reverse_cons, List.reverse_nil, List.nil_append,
          List.singleton_append]
        rw [chunkCarry, ← hd, ← hv]
      have hrem : chunkRem 256 3656158440062976 c ((bsl.take (j+1)).reverse)
          = chunkRem 256 3656158440062976 (v / 256) ((bsl.take j).reverse) := by
        rw [take_succ_getD bsl j hjlt, List.reverse_append]
        simp only [List.reverse_cons, List.reverse_nil, List.nil_append,
          List.singleton_append]
        rw [chunkRem, ← hd, ← hv]
      rw [hstep]
      constructor
      · rw [(ih1.trans (by rw [htake, hsh])), hrem]
      · intro out hout
        obtain ⟨o1, o2⟩ := ih2 out hout
        constructor
        · rw [o1, htake, hsh, drop_set_self bsl j _ hjlt, hchunk]
          simp [List.reverse_cons, List.append_assoc]
        · exact o2
    · have hstep : unmarshalPass minIdxP c (j + 1) bsl = some (bsl, j + 1) := by
        rw [unmarshalPass, if_neg hc]
      push_neg at hc
      obtain ⟨hc0, hcm⟩ := hc
      have hc0' : c = 0 := by omega
      subst hc0'
      have htake : bsl.take (j + 1) = List.replicate (j + 1) 0 :=
        take_eq_replicate_zero bsl (j + 1) (by omega)
          (fun i hi => hz i hi (by omega))
      rw [hstep]
      constructor
      · constructor
        · intro habs
          cases habs
        · intro habs
          rw [htake, List.reverse_replicate, chunkRem_replicate_zero] at habs
          omega
      · intro out hout
        cases hout
        constructor
        · simp only
          rw [htake, List.reverse_replicate, chunkCarry_replicate_zero,
            List.reverse_replicate, ← htake, List.take_append_drop]
        · intro i hi
          simp only at hi ⊢
          exact hz i hi (by omega)

theorem chunkRem_eq_zero_of_lt (base mult c : Nat) (l : List Nat) (hb : 0 < base)
    (h : c + mult * Nat.ofDigits base l < base ^ l.length) :
    chunkRem base mult c l = 0 := by
  have hv := chunkCarry_value base mult c l hb
  by_contra hne
  have h1 : 1 ≤ chunkRem base mult c l := Nat.one_le_iff_ne_zero.mpr hne
  have h2 : base ^ l.length ≤ chunkRem base mult c l * base ^ l.length := by
    calc base ^ l.length = 1 * base ^ l.length := by ring
      _ ≤ _ := Nat.mul_le_mul_right _ h1
  omega

/-- A multiply-and-add fold computes the big-endian base-`b` value. -/
theorem foldl_mul_add (b : Nat) (l : List Nat) (a : Nat) :
    l.foldl (fun c e => c * b + e) a = a * b ^ l.length + Nat.ofDigits b l.reverse := by
  induction l generalizing a with
  | nil => simp
  | cons x xs ih =>
    simp only [List.foldl_cons, List.reverse_cons, List.length_cons]
    rw [ih (a * b + x), Nat.ofDigits_append]
    simp only [List.length_reverse, Nat.ofDigits_singleton]
    push_cast
    ring

theorem ofDigits_reverse_append (b : Nat) (x y : List Nat) :
    Nat.ofDigits b (x ++ y).reverse
      = Nat.ofDigits b x.reverse * b ^ y.length + Nat.ofDigits b y.reverse := by
  rw [List.reverse_append, Nat.ofDigits_append, List.length_reverse]
  push_cast
  ring

theorem decodeMap_length : decodeMap.length = 256 := by decide

/-- Every entry of the decode table is either the invalid marker 255 or a
Base36 digit value. -/
theorem decodeMap_getD_cases (c : Nat) :
    decodeMap.getD c 255 = 255 ∨ decodeMap.getD c 255 < 36 := by
  by_cases hc : c < 256
  · revert hc
    revert c
    decide
  · left
    rw [List.getD_eq_getElem?_getD, List.getElem?_eq_none (by rw [decodeMap_length]; omega)]
    rfl

/-- Full characterization of `UnmarshalText` on a valid-looking string:
it fails exactly when the decoded magnitude does not fit in 128 bits, and
on success the stored 16-byte value is the decoded magnitude. -/
theorem UnmarshalText_spec (text : List Nat)
    (hlen : text.length = 25)
    (hvd : ∀ c ∈ text, decodeMap.getD c 255 ≠ 255) :
    (Id.UnmarshalText text = none
       ↔ 2 ^ 128 ≤ Nat.ofDigits 36 (text.map fun e => decodeMap.getD e 255).reverse)
    ∧ ∀ id, Id.UnmarshalText text = some id →
        id.WF ∧ idVal id = Nat.ofDigits 36 (text.map fun e => decodeMap.getD e 255).reverse := by
  set src := text.map fun e => decodeMap.getD e 255 with hsrc
  have hsrclen : src.length = 25 := by simp [hsrc, hlen]
  have hsrcmem : ∀ x ∈ src, x < 36 := by
    intro x hx
    rw [hsrc] at hx
    obtain ⟨c, hc, hcx⟩ := List.mem_map.mp hx
    rcases decodeMap_getD_cases c with h | h
    · exact absurd h (hvd c hc)
    · omega
  have h255 : ¬(255 ∈ src) := by
    intro habs
    have := hsrcmem 255 habs
    omega
  -- word values
  have hw1 : (src.take 5).foldl (fun carry e => carry * 36 + e) 0
      = Nat.ofDigits 36 (src.take 5).reverse := by
    rw [foldl_mul_add]
    simp
  have hw2 : ((src.drop 5).take 10).foldl (fun carry e => carry * 36 + e) 0
      = Nat.ofDigits 36 ((src.drop 5).take 10).reverse := by
    rw [foldl_mul_add]
    simp
  have hw3 : ((src.drop 15).take 10).foldl (fun carry e => carry * 36 + e) 0
      = Nat.ofDigits 36 ((src.drop 15).take 10).reverse := by
    rw [foldl_mul_add]
    simp
  set w1 := Nat.ofDigits 36 (src.take 5).reverse with hw1d
  set w2 := Nat.ofDigits 36 ((src.drop 5).take 10).reverse with hw2d
  set w3 := Nat.ofDigits 36 ((src.drop 15).take 10).reverse with hw3d
  have hlt1 : w1 < 36 ^ 5 := by
    rw [hw1d]
    have := Nat.ofDigits_lt_base_pow_length (b := 36) (l := (src.take 5).reverse)
      (by norm_num) (fun x hx => hsrcmem x (List.take_subset _ _ (List.mem_reverse.mp hx)))
    simpa [List.length_take, hsrclen] using this
  have hlt2 : w2 < 36 ^ 10 := by
    rw [hw2d]
    have := Nat.ofDigits_lt_base_pow_length (b := 36) (l := ((src.drop 5).take 10).reverse)
      (by norm_num)
      (fun x hx => hsrcmem x (List.drop_subset _ _ (List.take_subset _ _ (List.mem_reverse.mp hx))))
    simpa [List.length_take, hsrclen] using this
  have hlt3 : w3 < 36 ^ 10 := by
    rw [hw3d]
    have := Nat.ofDigits_lt_base_pow_length (b := 36) (l := ((src.drop 15).take 10).reverse)
      (by norm_num)
      (fun x hx => hsrcmem x (List.drop_subset _ _ (List.take_subset _ _ (List.mem_reverse.mp hx))))
    simpa [List.length_take, hsrclen] using this
  -- the decoded magnitude in terms of the three words
  have hsplit : Nat.ofDigits 36 src.reverse = (w1 * 36 ^ 10 + w2) * 36 ^ 10 + w3 := by
    have h15 : src.drop 15 = (src.drop 5).drop 10 := by rw [List.drop_drop]
    have ht3 : (src.drop 15).take 10 = src.drop 15 := by
      apply List.take_of_length_le
      simp [hsrclen]
    have hd5 : src.drop 5 = (src.drop 5).take 10 ++ src.drop 15 := by
      rw [h15, List.take_append_drop]
    have hall : src = src.take 5 ++ ((src.drop 5).take 10 ++ src.drop 15) := by
      rw [← hd5, List.take_append_drop]
    conv_lhs => rw [hall]
    rw [ofDigits_reverse_append, ofDigits_reverse_append]
    rw [List.length_append]
    have hl10 : ((src.drop 5).take 10).length = 10 := by simp [List.length_take, hsrclen]
    have hl15 : (src.drop 15).length = 10 := by simp [hsrclen]
    rw [hl10, hl15, ← ht3, ← hw2d, ← hw3d, ← hw1d]
    ring
  have hM : (3656158440062976 : Nat) = 36 ^ 10 := by norm_num
  -- reduce `Id.UnmarshalText text` to the three-pass match
  have hunfold : Id.UnmarshalText text
      = (match unmarshalPass 100 w1 16 (List.replicate 16 0) with
         | none => none
         | some r1 =>
           match unmarshalPass r1.2 w2 16 r1.1 with
           | none => none
           | some r2 =>
             match unmarshalPass r2.2 w3 16 r2.1 with
             | none => none
             | some r3 => some ⟨r3.1⟩) := by
    rw [Id.UnmarshalText]
    rw [if_neg (by omega : ¬text.length ≠ 25)]
    simp only [← hsrc]
    rw [if_neg h255, hw1, hw2, hw3]
  -- pass 1
  obtain ⟨hbp1, hbs1⟩ := unmarshalPass_bridge 100 16 w1 (List.replicate 16 0)
    (by simp) (fun i _ _ => getD_replicate_zero 16 i)
  have ht0 : ((List.replicate 16 (0:Nat)).take 16).reverse = List.replicate 16 0 := by
    simp
  have hbnd1 : w1 + 3656158440062976 * Nat.ofDigits 256 (List.replicate 16 0)
      < 256 ^ (List.replicate 16 (0:Nat)).length := by
    rw [ofDigits_replicate_zero]
    simp only [List.length_replicate]
    omega
  have hrem1 : chunkRem 256 3656158440062976 w1 (List.replicate 16 0) = 0 :=
    chunkRem_eq_zero_of_lt _ _ _ _ (by norm_num) hbnd1
  cases hr1 : unmarshalPass 100 w1 16 (List.replicate 16 0) with
  | none =>
    exfalso
    have := hbp1.mp hr1
    rw [ht0, hrem1] at this
    omega
  | some r1 =>
  obtain ⟨hr1a, hr1b⟩ := hbs1 r1 hr1
  rw [ht0] at hr1a
  have hr1a' : r1.1 = (chunkCarry 256 3656158440062976 w1 (List.replicate 16 0)).reverse := by
    rw [hr1a]
    simp
  have hlen_r1 : r1.1.length = 16 := by
    rw [hr1a']
    simp [chunkCarry_length]
  have hmem_r1 : ∀ x ∈ r1.1, x < 256 := by
    rw [hr1a']
    intro x hx
    exact chunkCarry_lt _ _ _ _ (by norm_num) x (List.mem_reverse.mp hx)
  have hval_r1 : Nat.ofDigits 256 r1.1.reverse = w1 := by
    rw [hr1a', List.reverse_reverse]
    rw [chunkCarry_value_of_lt 256 3656158440062976 w1 (List.replicate 16 0)
      (by norm_num) hbnd1]
    rw [ofDigits_replicate_zero]
    omega
  -- pass 2
  obtain ⟨hbp2, hbs2⟩ := unmarshalPass_bridge r1.2 16 w2 r1.1
    (by omega) (fun i _ him => hr1b i him)
  have ht1 : (r1.1.take 16).reverse = r1.1.reverse := by
    rw [List.take_of_length_le (by omega)]
  have hbnd2 : w2 + 3656158440062976 * Nat.ofDigits 256 r1.1.reverse
      < 256 ^ r1.1.reverse.length := by
    rw [hval_r1, hM]
    simp only [List.length_reverse, hlen_r1]
    omega
  have hrem2 : chunkRem 256 3656158440062976 w2 r1.1.reverse = 0 :=
    chunkRem_eq_zero_of_lt _ _ _ _ (by norm_num) hbnd2
  cases hr2 : unmarshalPass r1.2 w2 16 r1.1 with
  | none =>
    exfalso
    have := hbp2.mp hr2
    rw [ht1, hrem2] at this
    omega
  | some r2 =>
  obtain ⟨hr2a, hr2b⟩ := hbs2 r2 hr2
  rw [ht1] at hr2a
  have hdrop1 : r1.1.drop 16 = [] := List.drop_eq_nil_of_le (by omega)
  rw [hdrop1, List.append_nil] at hr2a
  have hlen_r2 : r2.1.length = 16 := by
    rw [hr2a]
    simp [chunkCarry_length, hlen_r1]
  have hmem_r2 : ∀ x ∈ r2.1, x < 256 := by
    rw [hr2a]
    intro x hx
    exact chunkCarry_lt _ _ _ _ (by norm_num) x (List.mem_reverse.mp hx)
  have hval_r2 : Nat.ofDigits 256 r2.1.reverse = w2 + 36 ^ 10 * w1 := by
    rw [hr2a, List.reverse_reverse]
    rw [chunkCarry_value_of_lt 256 3656158440062976 w2 r1.1.reverse (by norm_num) hbnd2]
    rw [hval_r1, hM]
  -- pass 3
  obtain ⟨hbp3, hbs3⟩ := unmarshalPass_bridge r2.2 16 w3 r2.1
    (by omega) (fun i _ him => hr2b i him)
  have ht2 : (r2.1.take 16).reverse = r2.1.reverse := by
    rw [List.take_of_length_le (by omega)]
  have hval3 : w3 + 3656158440062976 * Nat.ofDigits 256 r2.1.reverse
      = (w1 * 36 ^ 10 + w2) * 36 ^ 10 + w3 := by
    rw [hval_r2, hM]
    ring
  have hid3 := chunkCarry_value 256 3656158440062976 w3 r2.1.reverse (by norm_num)
  rw [hval3] at hid3
  have hlenrev2 : r2.1.reverse.length = 16 := by simp [hlen_r2]
  rw [hlenrev2] at hid3
  have hofd_lt : Nat.ofDigits 256 (chunkCarry 256 3656158440062976 w3 r2.1.reverse)
      < 256 ^ 16 := by
    have := Nat.ofDigits_lt_base_pow_length (b := 256)
      (l := chunkCarry 256 3656158440062976 w3 r2.1.reverse) (by norm_num)
      (chunkCarry_lt _ _ _ _ (by norm_num))
    rw [chunkCarry_length, hlenrev2] at this
    exact this
  have hiff3 : unmarshalPass r2.2 w3 16 r2.1 = none
      ↔ 2 ^ 128 ≤ (w1 * 36 ^ 10 + w2) * 36 ^ 10 + w3 := by
    rw [hbp3, ht2]
    constructor
    · intro hpos
      have h1 : 1 ≤ chunkRem 256 3656158440062976 w3 r2.1.reverse := hpos
      have h2 : (256:Nat) ^ 16 ≤ chunkRem 256 3656158440062976 w3 r2.1.reverse * 256 ^ 16 := by
        calc (256:Nat) ^ 16 = 1 * 256 ^ 16 := by ring
          _ ≤ _ := Nat.mul_le_mul_right _ h1
      have h216 : (256:Nat) ^ 16 = 2 ^ 128 := by norm_num
      omega
    · intro hge
      by_contra hz
      have hz0 : chunkRem 256 3656158440062976 w3 r2.1.reverse = 0 := by omega
      rw [hz0] at hid3
      have h216 : (256:Nat) ^ 16 = 2 ^ 128 := by norm_num
      omega
  have hf1 : Id.UnmarshalText text
      = (match unmarshalPass r1.2 w2 16 r1.1 with
         | none => none
         | some r2 =>
           match unmarshalPass r2.2 w3 16 r2.1 with
           | none => none
           | some r3 => some ⟨r3.1⟩) := by
    rw [hunfold, hr1]
  have hf2 : Id.UnmarshalText text
      = (match unmarshalPass r2.2 w3 16 r2.1 with
         | none => none
         | some r3 => some ⟨r3.1⟩) := by
    rw [hf1, hr2]
  rw [hf2]
  constructor
  · constructor
    · intro hnone
      rw [hsplit]
      cases hr3 : unmarshalPass r2.2 w3 16 r2.1 with
      | none => exact hiff3.mp hr3
      | some r3 =>
        rw [hr3] at hnone
        simp at hnone
    · intro hge
      have := hiff3.mpr (by rw [hsplit] at hge; exact hge)
      rw [this]
  · intro id hid
    cases hr3 : unmarshalPass r2.2 w3 16 r2.1 with
    | none =>
      rw [hr3] at hid
      simp at hid
    | some r3 =>
      rw [hr3] at hid
      simp only [Option.some.injEq] at hid
      obtain ⟨hr3a, hr3b⟩ := hbs3 r3 hr3
      rw [ht2] at hr3a
      have hdrop2 : r2.1.drop 16 = [] := List.drop_eq_nil_of_le (by omega)
      rw [hdrop2, List.append_nil] at hr3a
      have hnn : ¬(unmarshalPass r2.2 w3 16 r2.1 = none) := by
        rw [hr3]
        intro habs
        cases habs
      have hrem3 : chunkRem 256 3656158440062976 w3 r2.1.reverse = 0 := by
        have := (not_iff_not.mpr hbp3).mp hnn
        rw [ht2] at this
        omega
      rw [hrem3] at hid3
      constructor
      · rw [← hid]
        constructor
        · simp only
          rw [hr3a]
          simp [chunkCarry_length, hlen_r2]
        · simp only
          rw [hr3a]
          intro x hx
          exact chunkCarry_lt _ _ _ _ (by norm_num) x (List.mem_reverse.mp hx)
      · rw [← hid]
        unfold idVal beVal
        simp only
        rw [hr3a, List.reverse_reverse, hsplit]
        omega

theorem UnmarshalText_wrong_length (text : List Nat) (h : text.length ≠ 25) :
    Id.UnmarshalText text = none := by
  rw [Id.UnmarshalText, if_pos h]

theorem UnmarshalText_invalid_digit (text : List Nat) (hlen : text.length = 25)
    (h : ∃ c ∈ text, decodeMap.getD c 255 = 255) :
    Id.UnmarshalText text = none := by
  rw [Id.UnmarshalText, if_neg (by omega)]
  obtain ⟨c, hc, hcv⟩ := h
  have hmem : 255 ∈ text.map fun e => decodeMap.getD e 255 :=
    List.mem_map.mpr ⟨c, hc, hcv⟩
  simp only [hmem, if_pos]

/-!
## The decode table is the case-insensitive Base36 digit assignment
-/

/-- Case-insensitive Base36 digit value of an ASCII code point, straight
from the spec: digits `0-9`, then letters in either case; 255 marks a
character outside the alphabet. -/
def digitVal36 (c : Nat) : Nat :=
  if 48 ≤ c ∧ c ≤ 57 then c - 48
  else if 65 ≤ c ∧ c ≤ 90 then c - 55
  else if 97 ≤ c ∧ c ≤ 122 then c - 87
  else 255

/-- Membership of an ASCII code point in `[0-9A-Za-z]`. -/
def inAlphabet (c : Nat) : Prop :=
  (48 ≤ c ∧ c ≤ 57) ∨ (65 ≤ c ∧ c ≤ 90) ∨ (97 ≤ c ∧ c ≤ 122)

instance (c : Nat) : Decidable (inAlphabet c) := by
  unfold inAlphabet; infer_instance

theorem decodeMap_eq_digitVal36 (c : Nat) (hc : c < 256) :
    decodeMap.getD c 255 = digitVal36 c := by
  revert hc
  revert c
  decide

theorem digitVal36_invalid_iff (c : Nat) :
    digitVal36 c = 255 ↔ ¬inAlphabet c := by
  unfold digitVal36 inAlphabet
  by_cases h1 : 48 ≤ c ∧ c ≤ 57
  · rw [if_pos h1]; omega
  · rw [if_neg h1]
    by_cases h2 : 65 ≤ c ∧ c ≤ 90
    · rw [if_pos h2]; omega
    · rw [if_neg h2]
      by_cases h3 : 97 ≤ c ∧ c ≤ 122
      · rw [if_pos h3]; omega
      · rw [if_neg h3]; omega

/-!
## Lexicographic comparison in a general base
-/

theorem ofDigits_reverse_cons (B x : Nat) (l : List Nat) :
    Nat.ofDigits B ((x :: l).reverse) = x * B ^ l.length + Nat.ofDigits B l.reverse := by
  have h : x :: l = [x] ++ l := rfl
  rw [h, ofDigits_reverse_append]
  simp [Nat.ofDigits]

theorem ofDigits_reverse_lt (B : Nat) (hB : 1 < B) (l : List Nat)
    (h : ∀ x ∈ l, x < B) : Nat.ofDigits B l.reverse < B ^ l.length := by
  have := Nat.ofDigits_lt_base_pow_length (b := B) (l := l.reverse) hB
    (fun x hx => h x (List.mem_reverse.mp hx))
  simpa using this

theorem head_lt_ofDigits_reverse_lt (B : Nat) (hB : 1 < B) {x y : Nat}
    {as bs : List Nat} (hlen : as.length = bs.length)
    (ha : ∀ v ∈ as, v < B) (hxy : x < y) :
    Nat.ofDigits B ((x :: as).reverse) < Nat.ofDigits B ((y :: bs).reverse) := by
  rw [ofDigits_reverse_cons, ofDigits_reverse_cons, hlen]
  have h1 : Nat.ofDigits B as.reverse < B ^ bs.length := hlen ▸ ofDigits_reverse_lt B hB as ha
  have h2 : (x + 1) * B ^ bs.length ≤ y * B ^ bs.length :=
    Nat.mul_le_mul_right _ (by omega)
  have h3 : x * B ^ bs.length + B ^ bs.length = (x + 1) * B ^ bs.length := by ring
  omega

theorem bytesCompare_spec_gen (B : Nat) (hB : 1 < B) :
    ∀ (a b : List Nat), a.length = b.length →
    (∀ x ∈ a, x < B) → (∀ x ∈ b, x < B) →
    bytesCompare a b =
      (if Nat.ofDigits B a.reverse < Nat.ofDigits B b.reverse then -1
       else if Nat.ofDigits B b.reverse < Nat.ofDigits B a.reverse then 1 else 0) := by
  intro a
  induction a with
  | nil =>
    intro b hlen _ _
    cases b with
    | nil => simp [bytesCompare]
    | cons y ys => simp at hlen
  | cons x xs ih =>
    intro b hlen ha hb
    cases b with
    | nil => simp at hlen
    | cons y ys =>
      simp only [List.length_cons, Nat.succ.injEq] at hlen
      have hxs : ∀ v ∈ xs, v < B := fun v hv => ha v (by simp [hv])
      have hys : ∀ v ∈ ys, v < B := fun v hv => hb v (by simp [hv])
      unfold bytesCompare
      by_cases hlt : x < y
      · rw [if_pos hlt, if_pos (head_lt_ofDigits_reverse_lt B hB hlen hxs hlt)]
      · rw [if_neg hlt]
        by_cases hgt : y < x
        · rw [if_pos hgt, if_neg (by
            have := head_lt_ofDigits_reverse_lt B hB hlen.symm hys hgt
            omega), if_pos (head_lt_ofDigits_reverse_lt B hB hlen.symm hys hgt)]
        · have hxy : x = y := by omega
          subst hxy
          rw [if_neg (lt_irrefl x)]
          rw [ih ys hlen hxs hys]
          rw [ofDigits_reverse_cons, ofDigits_reverse_cons, hlen]
          simp only [Nat.add_lt_add_iff_left]

theorem ofDigits_reverse_inj (B : Nat) (hB : 1 < B) :
    ∀ (a b : List Nat), a.length = b.length →
    (∀ x ∈ a, x < B) → (∀ x ∈ b, x < B) →
    Nat.ofDigits B a.reverse = Nat.ofDigits B b.reverse → a = b := by
  intro a
  induction a with
  | nil =>
    intro b hlen _ _ _
    cases b with
    | nil => rfl
    | cons y ys => simp at hlen
  | cons x xs ih =>
    intro b hlen ha hb h
    cases b with
    | nil => simp at hlen
    | cons y ys =>
      simp only [List.length_cons, Nat.succ.injEq] at hlen
      have hxs : ∀ v ∈ xs, v < B := fun v hv => ha v (by simp [hv])
      have hys : ∀ v ∈ ys, v < B := fun v hv => hb v (by simp [hv])
      have hxy : x = y := by
        by_contra hne
        rcases Nat.lt_or_ge x y with hlt | hge
        · exact absurd h (Nat.ne_of_lt (head_lt_ofDigits_reverse_lt B hB hlen hxs hlt))
        · have hgt : y < x := by omega
          exact absurd h.symm
            (Nat.ne_of_lt (head_lt_ofDigits_reverse_lt B hB hlen.symm hys hgt))
      subst hxy
      rw [ofDigits_reverse_cons, ofDigits_reverse_cons, hlen] at h
      have : Nat.ofDigits B xs.reverse = Nat.ofDigits B ys.reverse := by omega
      rw [ih ys hlen hxs hys this]

/-!
## Facts about the digit alphabet, and `MarshalText` round-trip support
-/

theorem digits_strictMono : ∀ j : Nat, j < 36 → ∀ i : Nat, i < j →
    digits.getD i 0 < digits.getD j 0 := by decide

theorem digits_lt_256 : ∀ e : Nat, e < 36 → digits.getD e 0 < 256 := by decide

theorem decodeMap_digits : ∀ e : Nat, e < 36 →
    decodeMap.getD (digits.getD e 0) 255 = e := by decide

theorem idVal_lt (bs : Id) (h : bs.WF) : idVal bs < 2 ^ 128 := by
  obtain ⟨hlen, hmem⟩ := h
  have := beVal_lt bs.bytes hmem
  rw [hlen] at this
  unfold idVal
  calc beVal bs.bytes < 256 ^ 16 := this
    _ = 2 ^ 128 := by norm_num

theorem MarshalText_decode_src (bs : Id) (h : bs.WF) :
    (bs.MarshalText.map fun e => decodeMap.getD e 255) = marshalDigits bs := by
  obtain ⟨hlen25, hmem36, hval⟩ := marshalDigits_spec bs h
  unfold Id.MarshalText
  rw [List.map_map]
  have : ∀ d ∈ marshalDigits bs,
      ((fun e => decodeMap.getD e 255) ∘ fun e => digits.getD e 0) d = id d := by
    intro d hd
    simp only [Function.comp_apply, id_eq]
    exact decodeMap_digits d (hmem36 d hd)
  rw [List.map_congr_left this, List.map_id]

/-- Round-trip: text encoding of a well-formed ID parses back to it. -/
theorem UnmarshalText_MarshalText (bs : Id) (h : bs.WF) :
    Id.UnmarshalText bs.MarshalText = some bs := by
  obtain ⟨hlen25, hmem36, hval⟩ := marshalDigits_spec bs h
  have htlen : bs.MarshalText.length = 25 := by
    unfold Id.MarshalText
    simp [hlen25]
  have hvd : ∀ c ∈ bs.MarshalText, decodeMap.getD c 255 ≠ 255 := by
    intro c hc
    unfold Id.MarshalText at hc
    obtain ⟨d, hd, hdc⟩ := List.mem_map.mp hc
    rw [← hdc, decodeMap_digits d (hmem36 d hd)]
    have := hmem36 d hd
    omega
  obtain ⟨hiff, hsome⟩ := UnmarshalText_spec bs.MarshalText htlen hvd
  rw [MarshalText_decode_src bs h, hval] at hiff hsome
  have hne : Id.UnmarshalText bs.MarshalText ≠ none := by
    intro habs
    have := hiff.mp habs
    have := idVal_lt bs h
    omega
  obtain ⟨id2, hid2⟩ := Option.ne_none_iff_exists'.mp hne
  obtain ⟨hwf2, hval2⟩ := hsome id2 hid2
  have heq : id2 = bs := by
    obtain ⟨hl2, hm2⟩ := hwf2
    obtain ⟨hl1, hm1⟩ := h
    cases id2 with
    | mk b2 =>
      cases bs with
      | mk b1 =>
        have : b2 = b1 := beVal_inj b2 b1 (by rw [hl2, hl1]) hm2 hm1 hval2
        rw [this]
  rw [hid2, heq]

/-!
## Claim theorems for the identifier codec
-/

/-- C2: for every valid field tuple, `FromFields` → `MarshalText` →
`UnmarshalText` recovers the same ID, whose accessors return exactly the
original tuple; likewise `FromFields` → `MarshalBinary` →
`UnmarshalBinary` is the identity. -/
theorem C2_roundtrip (t h l e : Nat)
    (h1 : t ≤ 2 ^ 48 - 1) (h2 : h ≤ 2 ^ 24 - 1) (h3 : l ≤ 2 ^ 24 - 1) (h4 : e < 2 ^ 32)
    (id : Id) (hff : FromFields t h l e = some id) :
    Id.UnmarshalText id.MarshalText = some id
    ∧ Id.UnmarshalBinary id.MarshalBinary = some id
    ∧ id.Timestamp = t ∧ id.CounterHi = h ∧ id.CounterLo = l ∧ id.Entropy = e := by
  have h1' : t ≤ maxTimestamp := by unfold maxTimestamp; omega
  have h2' : h ≤ maxCounterHi := by unfold maxCounterHi; omega
  have h3' : l ≤ maxCounterLo := by unfold maxCounterLo; omega
  have hwf : id.WF := FromFields_WF t h l e id hff
  refine ⟨UnmarshalText_MarshalText id hwf, ?_, ?_, ?_, ?_, ?_⟩
  · unfold Id.UnmarshalBinary Id.MarshalBinary
    rw [if_pos hwf.1]
  · exact Timestamp_FromFields t h l e h1' h2' h3' id hff
  · exact CounterHi_FromFields t h l e h1' h2' h3' id hff
  · exact CounterLo_FromFields t h l e h1' h2' h3' id hff
  · exact Entropy_FromFields t h l e h1' h2' h3' h4 id hff

theorem C2_roundtrip_witness :
    Id.UnmarshalText (Id.MarshalText ⟨[0,0,0,0,0,1,0,0,2,0,0,3,0,0,0,4]⟩)
        = some ⟨[0,0,0,0,0,1,0,0,2,0,0,3,0,0,0,4]⟩
    ∧ Id.UnmarshalBinary (Id.MarshalBinary ⟨[0,0,0,0,0,1,0,0,2,0,0,3,0,0,0,4]⟩)
        = some ⟨[0,0,0,0,0,1,0,0,2,0,0,3,0,0,0,4]⟩
    ∧ Id.Timestamp ⟨[0,0,0,0,0,1,0,0,2,0,0,3,0,0,0,4]⟩ = 1
    ∧ Id.CounterHi ⟨[0,0,0,0,0,1,0,0,2,0,0,3,0,0,0,4]⟩ = 2
    ∧ Id.CounterLo ⟨[0,0,0,0,0,1,0,0,2,0,0,3,0,0,0,4]⟩ = 3
    ∧ Id.Entropy ⟨[0,0,0,0,0,1,0,0,2,0,0,3,0,0,0,4]⟩ = 4 :=
  C2_roundtrip 1 2 3 4 (by norm_num) (by norm_num) (by norm_num) (by norm_num)
    ⟨[0,0,0,0,0,1,0,0,2,0,0,3,0,0,0,4]⟩ (by decide)

/-- C3: `Cmp` returns -1/0/1 exactly as the numeric comparison of the
128-bit big-endian interpretations, and agrees with the byte-wise
lexicographic comparison of the canonical text forms. -/
theorem C3_order_equivalence (a b : Id) (ha : a.WF) (hb : b.WF) :
    (a.Cmp b = -1 ↔ idVal a < idVal b)
    ∧ (a.Cmp b = 0 ↔ idVal a = idVal b)
    ∧ (a.Cmp b = 1 ↔ idVal b < idVal a)
    ∧ a.Cmp b = bytesCompare a.MarshalText b.MarshalText := by
  obtain ⟨hla, hma⟩ := ha
  obtain ⟨hlb, hmb⟩ := hb
  have hcmp : a.Cmp b =
      (if idVal a < idVal b then -1 else if idVal b < idVal a then 1 else 0) :=
    bytesCompare_spec a.bytes b.bytes (by rw [hla, hlb]) hma hmb
  obtain ⟨hda25, hda36, hdaval⟩ := marshalDigits_spec a ⟨hla, hma⟩
  obtain ⟨hdb25, hdb36, hdbval⟩ := marshalDigits_spec b ⟨hlb, hmb⟩
  have htext : bytesCompare a.MarshalText b.MarshalText
      = bytesCompare (marshalDigits a) (marshalDigits b) := by
    unfold Id.MarshalText
    exact bytesCompare_map_strictMono (fun e => digits.getD e 0) 36
      (fun i j hij hj => digits_strictMono j hj i hij)
      (marshalDigits a) (marshalDigits b) hda36 hdb36
  have hdigcmp : bytesCompare (marshalDigits a) (marshalDigits b)
      = (if idVal a < idVal b then -1 else if idVal b < idVal a then 1 else 0) := by
    rw [bytesCompare_spec_gen 36 (by norm_num) (marshalDigits a) (marshalDigits b)
      (by rw [hda25, hdb25]) hda36 hdb36, hdaval, hdbval]
  refine ⟨?_, ?_, ?_, by rw [htext, hdigcmp, hcmp]⟩
  · rw [hcmp]
    by_cases h1 : idVal a < idVal b
    · simp [h1]
    · by_cases h2 : idVal b < idVal a
      · simp [h1, h2]
      · simp [h1, h2]
  · rw [hcmp]
    by_cases h1 : idVal a < idVal b
    · simp [h1]
      omega
    · by_cases h2 : idVal b < idVal a
      · simp [h1, h2]
        omega
      · simp [h1, h2]
        omega
  · rw [hcmp]
    by_cases h1 : idVal a < idVal b
    · simp [h1]
      omega
    · by_cases h2 : idVal b < idVal a
      · simp [h1, h2]
      · simp [h1, h2]

theorem C3_order_equivalence_witness :
    ((Id.Cmp ⟨[0,0,0,0,0,1,0,0,2,0,0,3,0,0,0,4]⟩ ⟨[0,0,0,0,0,2,0,0,2,0,0,3,0,0,0,4]⟩ = -1
        ↔ idVal ⟨[0,0,0,0,0,1,0,0,2,0,0,3,0,0,0,4]⟩ < idVal ⟨[0,0,0,0,0,2,0,0,2,0,0,3,0,0,0,4]⟩)
    ∧ (Id.Cmp ⟨[0,0,0,0,0,1,0,0,2,0,0,3,0,0,0,4]⟩ ⟨[0,0,0,0,0,2,0,0,2,0,0,3,0,0,0,4]⟩ = 0
        ↔ idVal ⟨[0,0,0,0,0,1,0,0,2,0,0,3,0,0,0,4]⟩ = idVal ⟨[0,0,0,0,0,2,0,0,2,0,0,3,0,0,0,4]⟩)
    ∧ (Id.Cmp ⟨[0,0,0,0,0,1,0,0,2,0,0,3,0,0,0,4]⟩ ⟨[0,0,0,0,0,2,0,0,2,0,0,3,0,0,0,4]⟩ = 1
        ↔ idVal ⟨[0,0,0,0,0,2,0,0,2,0,0,3,0,0,0,4]⟩ < idVal ⟨[0,0,0,0,0,1,0,0,2,0,0,3,0,0,0,4]⟩)
    ∧ Id.Cmp ⟨[0,0,0,0,0,1,0,0,2,0,0,3,0,0,0,4]⟩ ⟨[0,0,0,0,0,2,0,0,2,0,0,3,0,0,0,4]⟩
        = bytesCompare (Id.MarshalText ⟨[0,0,0,0,0,1,0,0,2,0,0,3,0,0,0,4]⟩)
            (Id.MarshalText ⟨[0,0,0,0,0,2,0,0,2,0,0,3,0,0,0,4]⟩)) :=
  C3_order_equivalence ⟨[0,0,0,0,0,1,0,0,2,0,0,3,0,0,0,4]⟩
    ⟨[0,0,0,0,0,2,0,0,2,0,0,3,0,0,0,4]⟩ (by decide) (by decide)

/-!
## C4: what `MarshalText` actually produces
-/

/-- Big-endian base-36 digit values of `n`, padded to `k` digits. -/
def base36BE : Nat → Nat → List Nat
  | 0, _ => []
  | k + 1, n => base36BE k (n / 36) ++ [n % 36]

theorem base36BE_length (k n : Nat) : (base36BE k n).length = k := by
  induction k generalizing n with
  | zero => rfl
  | succ k ih => simp [base36BE, ih]

theorem base36BE_lt (k n : Nat) : ∀ x ∈ base36BE k n, x < 36 := by
  induction k generalizing n with
  | zero => simp [base36BE]
  | succ k ih =>
    intro x hx
    simp only [base36BE, List.mem_append, List.mem_singleton] at hx
    rcases hx with h | h
    · exact ih (n / 36) x h
    · subst h
      exact Nat.mod_lt _ (by norm_num)

theorem base36BE_val (k n : Nat) :
    Nat.ofDigits 36 (base36BE k n).reverse = n % 36 ^ k := by
  induction k generalizing n with
  | zero => simp [base36BE, Nat.ofDigits, Nat.mod_one]
  | succ k ih =>
    rw [base36BE, List.reverse_append]
    simp only [List.reverse_cons, List.reverse_nil, List.nil_append,
      List.singleton_append]
    rw [Nat.ofDigits_cons, ih]
    have h1 : (36:Nat) ^ (k + 1) = 36 * 36 ^ k := by ring
    have h2 : n % (36 * 36 ^ k) = n % 36 + 36 * (n / 36 % 36 ^ k) := Nat.mod_mul
    rw [h1, h2]

/-- C4 counterexample: the maximal field tuple does NOT encode to the
25-character all-lowercase-"z" string. -/
theorem C4_counterexample :
    (FromFields (2 ^ 48 - 1) (2 ^ 24 - 1) (2 ^ 24 - 1) (2 ^ 32 - 1)).map Id.MarshalText
      ≠ some (List.replicate 25 122) := by decide

/-- C4 (amended): `MarshalText` is the base-36 encoding of the 128-bit
value over the UPPERCASE alphabet `0-9A-Z`, left-padded with the zero digit
to exactly 25 characters; the maximal field tuple encodes to
`"F5LXX1ZZ5PNORYNQGLHZMSP33"` and the all-zero ID to 25 `'0'` symbols. -/
theorem C4_amended (bs : Id) (h : bs.WF) :
    bs.MarshalText = (base36BE 25 (idVal bs)).map (fun e => digits.getD e 0)
    ∧ bs.MarshalText.length = 25
    ∧ (FromFields (2 ^ 48 - 1) (2 ^ 24 - 1) (2 ^ 24 - 1) (2 ^ 32 - 1)).map Id.MarshalText
        = some [70,53,76,88,88,49,90,90,53,80,78,79,82,89,78,81,71,76,72,90,77,83,80,51,51]
    ∧ (FromFields 0 0 0 0).map Id.MarshalText = some (List.replicate 25 48) := by
  obtain ⟨h25, h36, hval⟩ := marshalDigits_spec bs h
  have hidlt : idVal bs < 36 ^ 25 := by
    have := idVal_lt bs h
    omega
  have hdig : marshalDigits bs = base36BE 25 (idVal bs) := by
    apply ofDigits_reverse_inj 36 (by norm_num) _ _
      (by rw [h25, base36BE_length]) h36 (base36BE_lt 25 (idVal bs))
    rw [hval, base36BE_val, Nat.mod_eq_of_lt hidlt]
  refine ⟨?_, ?_, by decide, by decide⟩
  · unfold Id.MarshalText
    rw [hdig]
  · unfold Id.MarshalText
    simp [h25]

theorem C4_amended_witness :
    Id.MarshalText ⟨[0,0,0,0,0,1,0,0,2,0,0,3,0,0,0,4]⟩
        = (base36BE 25 (idVal ⟨[0,0,0,0,0,1,0,0,2,0,0,3,0,0,0,4]⟩)).map
            (fun e => digits.getD e 0)
    ∧ (Id.MarshalText ⟨[0,0,0,0,0,1,0,0,2,0,0,3,0,0,0,4]⟩).length = 25
    ∧ (FromFields (2 ^ 48 - 1) (2 ^ 24 - 1) (2 ^ 24 - 1) (2 ^ 32 - 1)).map Id.MarshalText
        = some [70,53,76,88,88,49,90,90,53,80,78,79,82,89,78,81,71,76,72,90,77,83,80,51,51]
    ∧ (FromFields 0 0 0 0).map Id.MarshalText = some (List.replicate 25 48) :=
  C4_amended ⟨[0,0,0,0,0,1,0,0,2,0,0,3,0,0,0,4]⟩ (by decide)

/-!
## C8: full validation behaviour of `UnmarshalText`
-/

/-- C8: for every byte string, `UnmarshalText` (and `Parse`) errors exactly
on wrong length, characters outside `[0-9A-Za-z]`, or a case-insensitive
Base36 magnitude of at least `2^128`; otherwise it stores the decoded
128-bit value. -/
theorem C8_text_validation (s : List Nat) (hbytes : ∀ c ∈ s, c < 256) :
    Parse s = Id.UnmarshalText s
    ∧ (Id.UnmarshalText s = none
        ↔ s.length ≠ 25 ∨ (∃ c ∈ s, ¬inAlphabet c)
          ∨ 2 ^ 128 ≤ Nat.ofDigits 36 (s.map digitVal36).reverse)
    ∧ ∀ id, Id.UnmarshalText s = some id →
        id.WF ∧ idVal id = Nat.ofDigits 36 (s.map digitVal36).reverse := by
  refine ⟨rfl, ?_⟩
  have hmapeq : (s.map fun e => decodeMap.getD e 255) = s.map digitVal36 :=
    List.map_congr_left fun c hc => decodeMap_eq_digitVal36 c (hbytes c hc)
  by_cases hlen : s.length = 25
  · by_cases hinv : ∃ c ∈ s, ¬inAlphabet c
    · obtain ⟨c, hc, hcv⟩ := hinv
      have hnone : Id.UnmarshalText s = none := by
        apply UnmarshalText_invalid_digit s hlen
        refine ⟨c, hc, ?_⟩
        rw [decodeMap_eq_digitVal36 c (hbytes c hc)]
        exact (digitVal36_invalid_iff c).mpr hcv
      constructor
      · rw [hnone]
        simp only [true_iff]
        right
        left
        exact ⟨c, hc, hcv⟩
      · intro id hid
        rw [hnone] at hid
        cases hid
    · push_neg at hinv
      have hvd : ∀ c ∈ s, decodeMap.getD c 255 ≠ 255 := by
        intro c hc
        rw [decodeMap_eq_digitVal36 c (hbytes c hc)]
        intro habs
        exact ((digitVal36_invalid_iff c).mp habs) (hinv c hc)
      obtain ⟨hiff, hsome⟩ := UnmarshalText_spec s hlen hvd
      rw [hmapeq] at hiff hsome
      constructor
      · rw [hiff]
        constructor
        · intro hge
          right
          right
          exact hge
        · intro hor
          rcases hor with h | h | h
          · omega
          · obtain ⟨c, hc, hcv⟩ := h
            exact absurd (hinv c hc) hcv
          · exact h
      · exact hsome
  · have hnone : Id.UnmarshalText s = none := UnmarshalText_wrong_length s hlen
    constructor
    · rw [hnone]
      simp only [true_iff]
      left
      exact hlen
    · intro id hid
      rw [hnone] at hid
      cases hid

theorem C8_text_validation_witness :
    (Parse [122] = Id.UnmarshalText [122]
    ∧ (Id.UnmarshalText [122] = none
        ↔ ([122] : List Nat).length ≠ 25 ∨ (∃ c ∈ ([122] : List Nat), ¬inAlphabet c)
          ∨ 2 ^ 128 ≤ Nat.ofDigits 36 (([122] : List Nat).map digitVal36).reverse)
    ∧ ∀ id, Id.UnmarshalText [122] = some id →
        id.WF ∧ idVal id = Nat.ofDigits 36 (([122] : List Nat).map digitVal36).reverse) :=
  C8_text_validation [122] (by decide)

/-!
## The generator state machine (`generator.go`)

The random source (`io.Reader` supplying 32-bit draws through
`randomUint32`) is modelled as the sequence of 32-bit values it returns:
field `rng`, read at index `pos`.  The model never makes the source fail,
matching the claims, which quantify over successful draws.
-/

/-- The generator state: `timestamp`, `counterHi`, `counterLo`,
`tsCounterHi` exactly as in `generator.go`, plus the modelled random
source. -/
structure GeneratorState where
  timestamp : Nat
  counterHi : Nat
  counterLo : Nat
  tsCounterHi : Nat
  rng : List Nat
  pos : Nat
deriving DecidableEq, Repr

/-- `NewGeneratorWithRng` (`generator.go`): a fresh zeroed generator over
the given random source. -/
def NewGeneratorWithRng (rng : List Nat) : GeneratorState :=
  { timestamp := 0, counterHi := 0, counterLo := 0, tsCounterHi := 0, rng := rng, pos := 0 }

/-- `randomUint32` (`generator.go`): one 32-bit draw from the source. -/
def randomUint32 (g : GeneratorState) : Nat × GeneratorState :=
  ((g.rng.getD g.pos 0) % 2 ^ 32, { g with pos := g.pos + 1 })

/-- Outcome of a generation call: an ID with the updated state, the
`ErrClockRollback` error (state returned unchanged by the code), or a Go
panic (`FromFields` or the argument checks). -/
inductive GenResult where
  | ok (id : Id) (g : GeneratorState)
  | rollbackErr (g : GeneratorState)
  | panicked
deriving DecidableEq, Repr

/-- The tail of `GenerateOrAbortCore` (`generator.go`): the `counter_hi`
refresh step (`if g.timestamp-g.tsCounterHi >= 1_000 || g.tsCounterHi == 0`,
a wrapping uint64 subtraction written modulo `2^64`), then the entropy draw
and `FromFields`. -/
def refreshAndFinalize (g : GeneratorState) : GenResult :=
  let g1 :=
    if (2 ^ 64 + g.timestamp - g.tsCounterHi) % 2 ^ 64 ≥ 1000 ∨ g.tsCounterHi = 0 then
      let gn := randomUint32 { g with tsCounterHi := g.timestamp }
      { gn.2 with counterHi := gn.1 &&& maxCounterHi }
    else g
  let gn := randomUint32 g1
  match FromFields g1.timestamp g1.counterHi g1.counterLo gn.1 with
  | some id => .ok id gn.2
  | none => .panicked

/-- The `else if timestamp+rollbackAllowance >= g.timestamp` body of
`GenerateOrAbortCore`: increment `counter_lo` with the two overflow
cascades (all counter arithmetic is uint32, timestamp uint64). -/
def counterIncrement (g : GeneratorState) : GeneratorState :=
  let g1 := { g with counterLo := (g.counterLo + 1) % 2 ^ 32 }
  if g1.counterLo > maxCounterLo then
    let g2 := { g1 with counterLo := 0, counterHi := (g1.counterHi + 1) % 2 ^ 32 }
    if g2.counterHi > maxCounterHi then
      let g3 := { g2 with counterHi := 0, timestamp := (g2.timestamp + 1) % 2 ^ 64 }
      let gn := randomUint32 g3
      { gn.2 with counterLo := gn.1 &&& maxCounterLo }
    else g2
  else g1

/-- `Generator.GenerateOrAbortCore` (`generator.go`). -/
def GenerateOrAbortCore (g : GeneratorState) (timestamp rollbackAllowance : Nat) :
    GenResult :=
  if timestamp = 0 ∨ timestamp > maxTimestamp then .panicked
  else if rollbackAllowance > maxTimestamp then .panicked
  else if timestamp > g.timestamp then
    let gn := randomUint32 { g with timestamp := timestamp }
    refreshAndFinalize { gn.2 with counterLo := gn.1 &&& maxCounterLo }
  else if (timestamp + rollbackAllowance) % 2 ^ 64 ≥ g.timestamp then
    refreshAndFinalize (counterIncrement g)
  else
    .rollbackErr g

/-- `Generator.GenerateOrResetCore` (`generator.go`): on `ErrClockRollback`,
clear `timestamp` and `tsCounterHi` and call `GenerateOrAbortCore` again. -/
def GenerateOrResetCore (g : GeneratorState) (timestamp rollbackAllowance : Nat) :
    GenResult :=
  match GenerateOrAbortCore g timestamp rollbackAllowance with
  | .rollbackErr g1 =>
      GenerateOrAbortCore { g1 with timestamp := 0, tsCounterHi := 0 }
        timestamp rollbackAllowance
  | r => r

/-- Variant of the refresh step computing the Go subtraction
`g.timestamp - g.tsCounterHi` as a truncated (non-wrapping) subtraction;
used to state that the uint64 subtraction never underflows on reachable
states. -/
def refreshAndFinalizeT (g : GeneratorState) : GenResult :=
  let g1 :=
    if g.timestamp - g.tsCounterHi ≥ 1000 ∨ g.tsCounterHi = 0 then
      let gn := randomUint32 { g with tsCounterHi := g.timestamp }
      { gn.2 with counterHi := gn.1 &&& maxCounterHi }
    else g
  let gn := randomUint32 g1
  match FromFields g1.timestamp g1.counterHi g1.counterLo gn.1 with
  | some id => .ok id gn.2
  | none => .panicked

/-- `GenerateOrAbortCore` with the truncated-subtraction refresh step. -/
def GenerateOrAbortCoreT (g : GeneratorState) (timestamp rollbackAllowance : Nat) :
    GenResult :=
  if timestamp = 0 ∨ timestamp > maxTimestamp then .panicked
  else if rollbackAllowance > maxTimestamp then .panicked
  else if timestamp > g.timestamp then
    let gn := randomUint32 { g with timestamp := timestamp }
    refreshAndFinalizeT { gn.2 with counterLo := gn.1 &&& maxCounterLo }
  else if (timestamp + rollbackAllowance) % 2 ^ 64 ≥ g.timestamp then
    refreshAndFinalizeT (counterIncrement g)
  else
    .rollbackErr g

/-- `GenerateOrResetCore` with the truncated-subtraction refresh step. -/
def GenerateOrResetCoreT (g : GeneratorState) (timestamp rollbackAllowance : Nat) :
    GenResult :=
  match GenerateOrAbortCoreT g timestamp rollbackAllowance with
  | .rollbackErr g1 =>
      GenerateOrAbortCoreT { g1 with timestamp := 0, tsCounterHi := 0 }
        timestamp rollbackAllowance
  | r => r

/-- Run a sequence of generation calls, failing the whole run if any call
does not return an ID. -/
def runCalls (core : GeneratorState → Nat → Nat → GenResult) :
    GeneratorState → List (Nat × Nat) → Option (List Id × GeneratorState)
  | g, [] => some ([], g)
  | g, c :: rest =>
    match core g c.1 c.2 with
    | .ok id g1 => (runCalls core g1 rest).map fun p => (id :: p.1, p.2)
    | _ => none

/-!
## Branch lemmas for the generator
-/

theorem refreshAndFinalize_refresh (g : GeneratorState)
    (hcond : (2 ^ 64 + g.timestamp - g.tsCounterHi) % 2 ^ 64 ≥ 1000 ∨ g.tsCounterHi = 0) :
    refreshAndFinalize g =
      match FromFields g.timestamp ((g.rng.getD g.pos 0) % 2 ^ 32 &&& maxCounterHi)
          g.counterLo ((g.rng.getD (g.pos + 1) 0) % 2 ^ 32) with
      | some id => .ok id
          { g with tsCounterHi := g.timestamp,
                   counterHi := (g.rng.getD g.pos 0) % 2 ^ 32 &&& maxCounterHi,
                   pos := g.pos + 2 }
      | none => .panicked := by
  unfold refreshAndFinalize randomUint32
  rw [if_pos hcond]

theorem refreshAndFinalize_norefresh (g : GeneratorState)
    (hcond : ¬((2 ^ 64 + g.timestamp - g.tsCounterHi) % 2 ^ 64 ≥ 1000 ∨ g.tsCounterHi = 0)) :
    refreshAndFinalize g =
      match FromFields g.timestamp g.counterHi g.counterLo ((g.rng.getD g.pos 0) % 2 ^ 32) with
      | some id => .ok id { g with pos := g.pos + 1 }
      | none => .panicked := by
  unfold refreshAndFinalize randomUint32
  rw [if_neg hcond]

theorem refreshAndFinalize_ne_rollback (g : GeneratorState) :
    ∀ g1, refreshAndFinalize g ≠ .rollbackErr g1 := by
  intro g1
  unfold refreshAndFinalize randomUint32
  by_cases hcond : (2 ^ 64 + g.timestamp - g.tsCounterHi) % 2 ^ 64 ≥ 1000 ∨ g.tsCounterHi = 0
  · rw [if_pos hcond]
    dsimp only
    split <;> simp
  · rw [if_neg hcond]
    dsimp only
    split <;> simp

theorem abort_branch_new (g : GeneratorState) (ts ra : Nat)
    (h1 : ¬(ts = 0 ∨ ts > maxTimestamp)) (h2 : ¬ra > maxTimestamp)
    (h3 : ts > g.timestamp) :
    GenerateOrAbortCore g ts ra
      = refreshAndFinalize
          { g with timestamp := ts,
                   counterLo := (g.rng.getD g.pos 0) % 2 ^ 32 &&& maxCounterLo,
                   pos := g.pos + 1 } := by
  unfold GenerateOrAbortCore randomUint32
  rw [if_neg h1, if_neg h2, if_pos h3]

theorem abort_branch_counter (g : GeneratorState) (ts ra : Nat)
    (h1 : ¬(ts = 0 ∨ ts > maxTimestamp)) (h2 : ¬ra > maxTimestamp)
    (h3 : ¬ts > g.timestamp) (h4 : (ts + ra) % 2 ^ 64 ≥ g.timestamp) :
    GenerateOrAbortCore g ts ra = refreshAndFinalize (counterIncrement g) := by
  unfold GenerateOrAbortCore
  rw [if_neg h1, if_neg h2, if_neg h3, if_pos h4]

theorem abort_branch_rollback (g : GeneratorState) (ts ra : Nat)
    (h1 : ¬(ts = 0 ∨ ts > maxTimestamp)) (h2 : ¬ra > maxTimestamp)
    (h3 : ¬ts > g.timestamp) (h4 : ¬(ts + ra) % 2 ^ 64 ≥ g.timestamp) :
    GenerateOrAbortCore g ts ra = .rollbackErr g := by
  unfold GenerateOrAbortCore
  rw [if_neg h1, if_neg h2, if_neg h3, if_neg h4]

theorem counterIncrement_case1 (g : GeneratorState) (h : g.counterLo < maxCounterLo) :
    counterIncrement g = { g with counterLo := g.counterLo + 1 } := by
  have hm : (g.counterLo + 1) % 2 ^ 32 = g.counterLo + 1 :=
    Nat.mod_eq_of_lt (by unfold maxCounterLo at h; omega)
  unfold counterIncrement
  rw [hm]
  have hc : ¬(({ g with counterLo := g.counterLo + 1 } : GeneratorState).counterLo
      > maxCounterLo) := by
    show ¬(g.counterLo + 1 > maxCounterLo)
    omega
  rw [if_neg hc]

theorem counterIncrement_case2 (g : GeneratorState) (h : g.counterLo = maxCounterLo)
    (hh : g.counterHi < maxCounterHi) :
    counterIncrement g = { g with counterLo := 0, counterHi := g.counterHi + 1 } := by
  have hm : (g.counterLo + 1) % 2 ^ 32 = g.counterLo + 1 :=
    Nat.mod_eq_of_lt (by unfold maxCounterLo at h; omega)
  have hm2 : (g.counterHi + 1) % 2 ^ 32 = g.counterHi + 1 :=
    Nat.mod_eq_of_lt (by unfold maxCounterHi at hh; omega)
  unfold counterIncrement
  rw [hm]
  have hc : (({ g with counterLo := g.counterLo + 1 } : GeneratorState).counterLo
      > maxCounterLo) := by
    show g.counterLo + 1 > maxCounterLo
    omega
  rw [if_pos hc]
  dsimp only
  rw [hm2]
  rw [if_neg (show ¬(g.counterHi + 1 > maxCounterHi) from by omega)]

theorem counterIncrement_case3 (g : GeneratorState) (h : g.counterLo = maxCounterLo)
    (hh : g.counterHi = maxCounterHi) :
    counterIncrement g =
      { g with counterLo := (g.rng.getD g.pos 0) % 2 ^ 32 &&& maxCounterLo,
               counterHi := 0,
               timestamp := (g.timestamp + 1) % 2 ^ 64,
               pos := g.pos + 1 } := by
  have hm : (g.counterLo + 1) % 2 ^ 32 = g.counterLo + 1 :=
    Nat.mod_eq_of_lt (by unfold maxCounterLo at h; omega)
  have hm2 : (g.counterHi + 1) % 2 ^ 32 = g.counterHi + 1 :=
    Nat.mod_eq_of_lt (by unfold maxCounterHi at hh; omega)
  unfold counterIncrement randomUint32
  rw [hm]
  have hc : (({ g with counterLo := g.counterLo + 1 } : GeneratorState).counterLo
      > maxCounterLo) := by
    show g.counterLo + 1 > maxCounterLo
    omega
  rw [if_pos hc]
  dsimp only
  rw [hm2]
  rw [if_pos (show g.counterHi + 1 > maxCounterHi from by omega)]

/-- Masked values stay within the 24-bit counter domains. -/
theorem mask_le_maxCounterHi (n : Nat) : n &&& maxCounterHi ≤ maxCounterHi :=
  Nat.and_le_right

theorem mask_le_maxCounterLo (n : Nat) : n &&& maxCounterLo ≤ maxCounterLo :=
  Nat.and_le_right

/-!
## C6: rollback leaves the generator state untouched
-/

/-- C6: whenever `GenerateOrAbortCore` returns `ErrClockRollback`, all four
generator state fields are exactly as before the call (and no random draw
was consumed). -/
theorem C6_rollback_frame (g : GeneratorState) (ts ra : Nat) (g1 : GeneratorState)
    (h : GenerateOrAbortCore g ts ra = .rollbackErr g1) :
    g1.timestamp = g.timestamp ∧ g1.counterHi = g.counterHi
    ∧ g1.counterLo = g.counterLo ∧ g1.tsCounterHi = g.tsCounterHi
    ∧ g1.pos = g.pos := by
  unfold GenerateOrAbortCore at h
  by_cases h1 : ts = 0 ∨ ts > maxTimestamp
  · rw [if_pos h1] at h; cases h
  · rw [if_neg h1] at h
    by_cases h2 : ra > maxTimestamp
    · rw [if_pos h2] at h; cases h
    · rw [if_neg h2] at h
      by_cases h3 : ts > g.timestamp
      · rw [if_pos h3] at h
        exact absurd h (refreshAndFinalize_ne_rollback _ g1)
      · rw [if_neg h3] at h
        by_cases h4 : (ts + ra) % 2 ^ 64 ≥ g.timestamp
        · rw [if_pos h4] at h
          exact absurd h (refreshAndFinalize_ne_rollback _ g1)
        · rw [if_neg h4] at h
          cases h
          exact ⟨rfl, rfl, rfl, rfl, rfl⟩

theorem C6_rollback_frame_witness :
    (NewGeneratorWithRng []).timestamp + 0 = (NewGeneratorWithRng []).timestamp
    ∧ ({ timestamp := 20000, counterHi := 1, counterLo := 2, tsCounterHi := 3,
         rng := [], pos := 4 } : GeneratorState).timestamp = 20000
    ∧ (({ timestamp := 20000, counterHi := 1, counterLo := 2, tsCounterHi := 3,
          rng := [], pos := 4 } : GeneratorState).timestamp = 20000
      ∧ ({ timestamp := 20000, counterHi := 1, counterLo := 2, tsCounterHi := 3,
           rng := [], pos := 4 } : GeneratorState).counterHi = 1
      ∧ ({ timestamp := 20000, counterHi := 1, counterLo := 2, tsCounterHi := 3,
           rng := [], pos := 4 } : GeneratorState).counterLo = 2
      ∧ ({ timestamp := 20000, counterHi := 1, counterLo := 2, tsCounterHi := 3,
           rng := [], pos := 4 } : GeneratorState).tsCounterHi = 3
      ∧ ({ timestamp := 20000, counterHi := 1, counterLo := 2, tsCounterHi := 3,
           rng := [], pos := 4 } : GeneratorState).pos = 4) := by
  refine ⟨rfl, rfl, ?_⟩
  have := C6_rollback_frame
    { timestamp := 20000, counterHi := 1, counterLo := 2, tsCounterHi := 3,
      rng := [], pos := 4 } 1 0
    { timestamp := 20000, counterHi := 1, counterLo := 2, tsCounterHi := 3,
      rng := [], pos := 4 } (by decide)
  simpa using this

/-!
## The value of an ID in terms of its accessors
-/

theorem idVal_decompose (bs : Id) (h : bs.WF) :
    idVal bs
      = ((bs.Timestamp * 2 ^ 24 + bs.CounterHi) * 2 ^ 24 + bs.CounterLo) * 2 ^ 32
          + bs.Entropy
    ∧ bs.Timestamp < 2 ^ 48 ∧ bs.CounterHi < 2 ^ 24
    ∧ bs.CounterLo < 2 ^ 24 ∧ bs.Entropy < 2 ^ 32 := by
  obtain ⟨hlen, hmem⟩ := h
  set B := bs.bytes with hB
  have hm1 : ∀ b ∈ B.take 6, b < 256 := fun b hb => hmem b (List.take_subset _ _ hb)
  have hm2 : ∀ b ∈ (B.drop 6).take 3, b < 256 :=
    fun b hb => hmem b (List.drop_subset _ _ (List.take_subset _ _ hb))
  have hm3 : ∀ b ∈ (B.drop 9).take 3, b < 256 :=
    fun b hb => hmem b (List.drop_subset _ _ (List.take_subset _ _ hb))
  have hm4 : ∀ b ∈ (B.drop 12).take 4, b < 256 :=
    fun b hb => hmem b (List.drop_subset _ _ (List.take_subset _ _ hb))
  have hl1 : (B.take 6).length = 6 := by simp [List.length_take, hlen]
  have hl2 : ((B.drop 6).take 3).length = 3 := by simp [List.length_take, hlen]
  have hl3 : ((B.drop 9).take 3).length = 3 := by simp [List.length_take, hlen]
  have hl4 : ((B.drop 12).take 4).length = 4 := by simp [List.length_take, hlen]
  have hv1 : bs.Timestamp = beVal (B.take 6) := by
    unfold Id.Timestamp
    rw [← hB, bytesToUint64_eq_beVal _ hm1]
  have hb1 : beVal (B.take 6) < 2 ^ 48 := by
    have := beVal_lt _ hm1
    rw [hl1] at this
    norm_num at this ⊢
    omega
  have hb2 : beVal ((B.drop 6).take 3) < 2 ^ 24 := by
    have := beVal_lt _ hm2
    rw [hl2] at this
    norm_num at this ⊢
    omega
  have hb3 : beVal ((B.drop 9).take 3) < 2 ^ 24 := by
    have := beVal_lt _ hm3
    rw [hl3] at this
    norm_num at this ⊢
    omega
  have hb4 : beVal ((B.drop 12).take 4) < 2 ^ 32 := by
    have := beVal_lt _ hm4
    rw [hl4] at this
    norm_num at this ⊢
    omega
  have hv2 : bs.CounterHi = beVal ((B.drop 6).take 3) := by
    unfold Id.CounterHi
    rw [← hB, bytesToUint64_eq_beVal _ hm2]
    exact Nat.mod_eq_of_lt (by omega)
  have hv3 : bs.CounterLo = beVal ((B.drop 9).take 3) := by
    unfold Id.CounterLo
    rw [← hB, bytesToUint64_eq_beVal _ hm3]
    exact Nat.mod_eq_of_lt (by omega)
  have hv4 : bs.Entropy = beVal ((B.drop 12).take 4) := by
    unfold Id.Entropy
    rw [← hB, bytesToUint64_eq_beVal _ hm4]
    exact Nat.mod_eq_of_lt (by omega)
  have hd12 : (B.drop 12).take 4 = B.drop 12 := by
    apply List.take_of_length_le
    simp [hlen]
  have hsp3 : B.drop 9 = (B.drop 9).take 3 ++ B.drop 12 := by
    have : (B.drop 9).drop 3 = B.drop 12 := by rw [List.drop_drop]
    rw [← this, List.take_append_drop]
  have hsp2 : B.drop 6 = (B.drop 6).take 3 ++ B.drop 9 := by
    have : (B.drop 6).drop 3 = B.drop 9 := by rw [List.drop_drop]
    rw [← this, List.take_append_drop]
  have hall : B = B.take 6 ++ ((B.drop 6).take 3 ++ ((B.drop 9).take 3 ++ B.drop 12)) := by
    conv_lhs => rw [← List.take_append_drop 6 B, hsp2, hsp3]
  have hlen12 : (B.drop 12).length = 4 := by simp [hlen]
  have hlen9 : (B.drop 9).length = 7 := by simp [hlen]
  refine ⟨?_, by omega, by omega, by omega, by omega⟩
  unfold idVal
  rw [← hB]
  conv_lhs => rw [hall]
  rw [beVal_append, beVal_append, beVal_append]
  rw [List.length_append, List.length_append, hl3, hlen12, hl2]
  rw [hv1, hv2, hv3, hv4, hd12]
  norm_num
  ring

/-- Workhorse: on a state whose fields are within their domains,
`refreshAndFinalize` succeeds; the resulting state and ID are
characterized for both the refresh and the no-refresh path. -/
theorem refreshAndFinalize_ok (g : GeneratorState)
    (h1 : g.timestamp ≤ maxTimestamp) (h2 : g.counterHi ≤ maxCounterHi)
    (h3 : g.counterLo ≤ maxCounterLo) :
    ∃ id g1, refreshAndFinalize g = .ok id g1
      ∧ g1.timestamp = g.timestamp ∧ g1.counterLo = g.counterLo
      ∧ g1.counterHi ≤ maxCounterHi ∧ g1.rng = g.rng
      ∧ id.Timestamp = g.timestamp ∧ id.CounterHi = g1.counterHi
      ∧ id.CounterLo = g.counterLo ∧ id.WF
      ∧ (¬((2 ^ 64 + g.timestamp - g.tsCounterHi) % 2 ^ 64 ≥ 1000 ∨ g.tsCounterHi = 0) →
          g1.counterHi = g.counterHi ∧ g1.tsCounterHi = g.tsCounterHi)
      ∧ (((2 ^ 64 + g.timestamp - g.tsCounterHi) % 2 ^ 64 ≥ 1000 ∨ g.tsCounterHi = 0) →
          g1.tsCounterHi = g.timestamp) := by
  by_cases hcond : (2 ^ 64 + g.timestamp - g.tsCounterHi) % 2 ^ 64 ≥ 1000 ∨ g.tsCounterHi = 0
  · rw [refreshAndFinalize_refresh g hcond]
    set cHi := (g.rng.getD g.pos 0) % 2 ^ 32 &&& maxCounterHi with hcHi
    set ent := (g.rng.getD (g.pos + 1) 0) % 2 ^ 32 with hent
    have hcHile : cHi ≤ maxCounterHi := mask_le_maxCounterHi _
    have hentlt : ent < 2 ^ 32 := Nat.mod_lt _ (by norm_num)
    have hff := FromFields_eq_some g.timestamp cHi g.counterLo ent h1 hcHile h3
    rw [hff]
    refine ⟨_, _, rfl, rfl, rfl, hcHile, rfl,
      Timestamp_FromFields _ _ _ _ h1 hcHile h3 _ hff,
      CounterHi_FromFields _ _ _ _ h1 hcHile h3 _ hff,
      CounterLo_FromFields _ _ _ _ h1 hcHile h3 _ hff,
      FromFields_WF _ _ _ _ _ hff,
      fun hn => absurd hcond hn, fun _ => rfl⟩
  · rw [refreshAndFinalize_norefresh g hcond]
    set ent := (g.rng.getD g.pos 0) % 2 ^ 32 with hent
    have hentlt : ent < 2 ^ 32 := Nat.mod_lt _ (by norm_num)
    have hff := FromFields_eq_some g.timestamp g.counterHi g.counterLo ent h1 h2 h3
    rw [hff]
    refine ⟨_, _, rfl, rfl, rfl, h2, rfl,
      Timestamp_FromFields _ _ _ _ h1 h2 h3 _ hff,
      CounterHi_FromFields _ _ _ _ h1 h2 h3 _ hff,
      CounterLo_FromFields _ _ _ _ h1 h2 h3 _ hff,
      FromFields_WF _ _ _ _ _ hff,
      fun _ => ⟨rfl, rfl⟩, fun hy => absurd hy hcond⟩

/-!
## C5: the rollback condition and its boundary
-/

/-- The saturated state used to refute the boundary-success claim. -/
def c5SaturatedState : GeneratorState :=
  { timestamp := 2 ^ 48 - 1, counterHi := 2 ^ 24 - 1, counterLo := 2 ^ 24 - 1,
    tsCounterHi := 1, rng := [], pos := 0 }

/-- C5 counterexample: at the inclusive boundary (`timestamp +
rollbackAllowance = state.timestamp`) the call is NOT always a success:
with the state at the maximal timestamp and both counters saturated, the
counter-overflow borrow pushes the timestamp past 48 bits and the call
panics in `FromFields` instead of succeeding. -/
theorem C5_counterexample :
    (2 ^ 48 - 1) + 0 = c5SaturatedState.timestamp
    ∧ GenerateOrAbortCore c5SaturatedState (2 ^ 48 - 1) 0 = .panicked := by
  constructor
  · decide
  · decide

/-- C5 (amended): for arguments in their domains, `GenerateOrAbortCore`
returns `ErrClockRollback` exactly when `timestamp + rollbackAllowance <
state.timestamp`; at the inclusive boundary the call is not treated as
rollback and goes through the counter path, succeeding whenever the state
fields are in their domains and the counter-overflow borrow cannot push the
timestamp past `2^48 - 1`. -/
theorem C5_rollback_boundary (g : GeneratorState) (ts ra : Nat)
    (h1 : 1 ≤ ts) (h2 : ts ≤ 2 ^ 48 - 1) (h3 : ra ≤ 2 ^ 48 - 1) :
    ((∃ g1, GenerateOrAbortCore g ts ra = .rollbackErr g1) ↔ ts + ra < g.timestamp)
    ∧ (ts + ra = g.timestamp →
        g.timestamp ≤ 2 ^ 48 - 1 → g.counterHi ≤ 2 ^ 24 - 1 → g.counterLo ≤ 2 ^ 24 - 1 →
        ¬(g.timestamp = 2 ^ 48 - 1 ∧ g.counterHi = 2 ^ 24 - 1 ∧ g.counterLo = 2 ^ 24 - 1) →
        GenerateOrAbortCore g ts ra = refreshAndFinalize (counterIncrement g)
        ∧ ∃ id g1, GenerateOrAbortCore g ts ra = .ok id g1) := by
  have hmax : maxTimestamp = 2 ^ 48 - 1 := rfl
  have hg1 : ¬(ts = 0 ∨ ts > maxTimestamp) := by rw [hmax]; omega
  have hg2 : ¬ra > maxTimestamp := by rw [hmax]; omega
  have hmod : (ts + ra) % 2 ^ 64 = ts + ra := Nat.mod_eq_of_lt (by omega)
  constructor
  · constructor
    · rintro ⟨g1, hrb⟩
      by_cases h4 : ts > g.timestamp
      · rw [abort_branch_new g ts ra hg1 hg2 h4] at hrb
        exact absurd hrb (refreshAndFinalize_ne_rollback _ g1)
      · by_cases h5 : (ts + ra) % 2 ^ 64 ≥ g.timestamp
        · rw [abort_branch_counter g ts ra hg1 hg2 h4 h5] at hrb
          exact absurd hrb (refreshAndFinalize_ne_rollback _ g1)
        · rw [hmod] at h5
          omega
    · intro hlt
      refine ⟨g, ?_⟩
      apply abort_branch_rollback g ts ra hg1 hg2 (by omega)
      rw [hmod]
      omega
  · intro hb hts hch hcl hcorner
    have h4 : ¬ts > g.timestamp := by omega
    have h5 : (ts + ra) % 2 ^ 64 ≥ g.timestamp := by rw [hmod]; omega
    have hroute := abort_branch_counter g ts ra hg1 hg2 h4 h5
    refine ⟨hroute, ?_⟩
    rw [hroute]
    have hch' : g.counterHi ≤ maxCounterHi := by
      unfold maxCounterHi; omega
    have hcl' : g.counterLo ≤ maxCounterLo := by
      unfold maxCounterLo; omega
    by_cases c1 : g.counterLo < maxCounterLo
    · rw [counterIncrement_case1 g c1]
      obtain ⟨id, g1, hok, _⟩ :=
        refreshAndFinalize_ok { g with counterLo := g.counterLo + 1 }
          (by show g.timestamp ≤ maxTimestamp
              rw [hmax]; omega)
          (by show g.counterHi ≤ maxCounterHi
              exact hch')
          (by show g.counterLo + 1 ≤ maxCounterLo
              unfold maxCounterLo at c1 ⊢; omega)
      exact ⟨id, g1, hok⟩
    · have hceq : g.counterLo = maxCounterLo := by omega
      by_cases c2 : g.counterHi < maxCounterHi
      · rw [counterIncrement_case2 g hceq c2]
        obtain ⟨id, g1, hok, _⟩ :=
          refreshAndFinalize_ok { g with counterLo := 0, counterHi := g.counterHi + 1 }
            (by show g.timestamp ≤ maxTimestamp
                rw [hmax]; omega)
            (by show g.counterHi + 1 ≤ maxCounterHi
                unfold maxCounterHi at c2 ⊢; omega)
            (by show (0:Nat) ≤ maxCounterLo
                unfold maxCounterLo; omega)
        exact ⟨id, g1, hok⟩
      · have hheq : g.counterHi = maxCounterHi := by omega
        have htlt : g.timestamp < 2 ^ 48 - 1 := by
          rcases Nat.lt_or_ge g.timestamp (2 ^ 48 - 1) with hl | hge
          · exact hl
          · exfalso
            apply hcorner
            unfold maxCounterHi at hheq
            unfold maxCounterLo at hceq
            exact ⟨by omega, by omega, by omega⟩
        rw [counterIncrement_case3 g hceq hheq]
        have hmod2 : (g.timestamp + 1) % 2 ^ 64 = g.timestamp + 1 :=
          Nat.mod_eq_of_lt (by omega)
        obtain ⟨id, g1, hok, _⟩ :=
          refreshAndFinalize_ok
            { g with counterLo := (g.rng.getD g.pos 0) % 2 ^ 32 &&& maxCounterLo,
                     counterHi := 0,
                     timestamp := (g.timestamp + 1) % 2 ^ 64,
                     pos := g.pos + 1 }
            (by show (g.timestamp + 1) % 2 ^ 64 ≤ maxTimestamp
                rw [hmod2, hmax]; omega)
            (by show (0:Nat) ≤ maxCounterHi
                unfold maxCounterHi; omega)
            (by show (g.rng.getD g.pos 0) % 2 ^ 32 &&& maxCounterLo ≤ maxCounterLo
                exact mask_le_maxCounterLo _)
        exact ⟨id, g1, hok⟩

theorem C5_rollback_boundary_witness :
    ((∃ g1, GenerateOrAbortCore (NewGeneratorWithRng []) 5 3 = .rollbackErr g1)
        ↔ 5 + 3 < (NewGeneratorWithRng []).timestamp)
    ∧ (5 + 3 = (NewGeneratorWithRng []).timestamp →
        (NewGeneratorWithRng []).timestamp ≤ 2 ^ 48 - 1 →
        (NewGeneratorWithRng []).counterHi ≤ 2 ^ 24 - 1 →
        (NewGeneratorWithRng []).counterLo ≤ 2 ^ 24 - 1 →
        ¬((NewGeneratorWithRng []).timestamp = 2 ^ 48 - 1
          ∧ (NewGeneratorWithRng []).counterHi = 2 ^ 24 - 1
          ∧ (NewGeneratorWithRng []).counterLo = 2 ^ 24 - 1) →
        GenerateOrAbortCore (NewGeneratorWithRng []) 5 3
          = refreshAndFinalize (counterIncrement (NewGeneratorWithRng []))
        ∧ ∃ id g1, GenerateOrAbortCore (NewGeneratorWithRng []) 5 3 = .ok id g1) :=
  C5_rollback_boundary (NewGeneratorWithRng []) 5 3 (by norm_num) (by norm_num)
    (by norm_num)

/-!
## C7: `GenerateOrResetCore` never reports clock rollback
-/

/-- Helper: a rollback result carries the unchanged input state. -/
theorem abort_rollback_state (g : GeneratorState) (ts ra : Nat) (g1 : GeneratorState)
    (h : GenerateOrAbortCore g ts ra = .rollbackErr g1) : g1 = g := by
  unfold GenerateOrAbortCore at h
  by_cases h1 : ts = 0 ∨ ts > maxTimestamp
  · rw [if_pos h1] at h; cases h
  · rw [if_neg h1] at h
    by_cases h2 : ra > maxTimestamp
    · rw [if_pos h2] at h; cases h
    · rw [if_neg h2] at h
      by_cases h3 : ts > g.timestamp
      · rw [if_pos h3] at h
        exact absurd h (refreshAndFinalize_ne_rollback _ g1)
      · rw [if_neg h3] at h
        by_cases h4 : (ts + ra) % 2 ^ 64 ≥ g.timestamp
        · rw [if_pos h4] at h
          exact absurd h (refreshAndFinalize_ne_rollback _ g1)
        · rw [if_neg h4] at h
          cases h
          rfl

/-- Helper: a state whose `tsCounterHi` is zero always finalizes through the
`counter_hi` refresh and succeeds (given in-domain timestamp/counter_lo). -/
theorem refreshAndFinalize_ok0 (g : GeneratorState)
    (h1 : g.timestamp ≤ maxTimestamp) (h3 : g.counterLo ≤ maxCounterLo)
    (hc0 : g.tsCounterHi = 0) :
    ∃ id g1, refreshAndFinalize g = .ok id g1 ∧ id.Timestamp = g.timestamp := by
  rw [refreshAndFinalize_refresh g (Or.inr hc0)]
  have hff := FromFields_eq_some g.timestamp
    ((g.rng.getD g.pos 0) % 2 ^ 32 &&& maxCounterHi) g.counterLo
    ((g.rng.getD (g.pos + 1) 0) % 2 ^ 32) h1 (mask_le_maxCounterHi _) h3
  rw [hff]
  exact ⟨_, _, rfl, Timestamp_FromFields _ _ _ _ h1 (mask_le_maxCounterHi _) h3 _ hff⟩

/-- Helper: after the reset (`timestamp = 0`, `tsCounterHi = 0`), a call
with an in-domain timestamp always succeeds with that timestamp. -/
theorem abort_after_reset_ok (g : GeneratorState) (ts ra : Nat)
    (h1 : 1 ≤ ts) (h2 : ts ≤ maxTimestamp) (h3 : ra ≤ maxTimestamp) :
    ∃ id g1,
      GenerateOrAbortCore { g with timestamp := 0, tsCounterHi := 0 } ts ra = .ok id g1
      ∧ id.Timestamp = ts := by
  have hg1 : ¬(ts = 0 ∨ ts > maxTimestamp) := by omega
  have hg2 : ¬ra > maxTimestamp := by omega
  have hgt : ts > ({ g with timestamp := 0, tsCounterHi := 0 } : GeneratorState).timestamp := by
    show ts > 0
    omega
  rw [abort_branch_new _ ts ra hg1 hg2 hgt]
  obtain ⟨id, gf, hok, hts⟩ := refreshAndFinalize_ok0
    { g with timestamp := ts, tsCounterHi := 0,
             counterLo := (g.rng.getD g.pos 0) % 2 ^ 32 &&& maxCounterLo,
             pos := g.pos + 1 }
    (by show ts ≤ maxTimestamp; omega)
    (by show (g.rng.getD g.pos 0) % 2 ^ 32 &&& maxCounterLo ≤ maxCounterLo
        exact mask_le_maxCounterLo _)
    (by show (0:Nat) = 0; rfl)
  exact ⟨id, gf, hok, hts⟩

/-- C7: `GenerateOrResetCore` never returns `ErrClockRollback`; on a
rollback it resets `timestamp` and `tsCounterHi` to zero and retries, and
the retry returns an ID carrying the supplied timestamp. -/
theorem C7_reset_semantics (g : GeneratorState) (ts ra : Nat)
    (h1 : 1 ≤ ts) (h2 : ts ≤ 2 ^ 48 - 1) (h3 : ra ≤ 2 ^ 48 - 1) :
    (∀ g1, GenerateOrResetCore g ts ra ≠ .rollbackErr g1)
    ∧ (ts + ra < g.timestamp →
        GenerateOrResetCore g ts ra
          = GenerateOrAbortCore { g with timestamp := 0, tsCounterHi := 0 } ts ra
        ∧ ∃ id g1, GenerateOrResetCore g ts ra = .ok id g1 ∧ id.Timestamp = ts) := by
  have hmax : maxTimestamp = 2 ^ 48 - 1 := rfl
  have h2' : ts ≤ maxTimestamp := by omega
  have h3' : ra ≤ maxTimestamp := by omega
  constructor
  · intro g1
    unfold GenerateOrResetCore
    cases habort : GenerateOrAbortCore g ts ra with
    | ok id ga =>
      intro habs
      cases habs
    | panicked =>
      intro habs
      cases habs
    | rollbackErr ga =>
      have hga : ga = g := abort_rollback_state g ts ra ga habort
      subst hga
      obtain ⟨id, gf, hok, _⟩ := abort_after_reset_ok ga ts ra h1 h2' h3'
      show GenerateOrAbortCore { ga with timestamp := 0, tsCounterHi := 0 } ts ra
          ≠ .rollbackErr g1
      rw [hok]
      intro habs
      cases habs
  · intro hlt
    have hrb : GenerateOrAbortCore g ts ra = .rollbackErr g := by
      apply abort_branch_rollback g ts ra (by omega) (by omega) (by omega)
      rw [Nat.mod_eq_of_lt (show ts + ra < 2 ^ 64 by omega)]
      omega
    obtain ⟨id, gf, hok, hts⟩ := abort_after_reset_ok g ts ra h1 h2' h3'
    have hres : GenerateOrResetCore g ts ra
        = GenerateOrAbortCore { g with timestamp := 0, tsCounterHi := 0 } ts ra := by
      unfold GenerateOrResetCore
      rw [hrb]
    exact ⟨hres, id, gf, by rw [hres, hok], hts⟩

theorem C7_reset_semantics_witness :
    ((∀ g1, GenerateOrResetCore c5SaturatedState 5 3 ≠ .rollbackErr g1)
    ∧ (5 + 3 < c5SaturatedState.timestamp →
        GenerateOrResetCore c5SaturatedState 5 3
          = GenerateOrAbortCore
              { c5SaturatedState with timestamp := 0, tsCounterHi := 0 } 5 3
        ∧ ∃ id g1, GenerateOrResetCore c5SaturatedState 5 3 = .ok id g1
            ∧ id.Timestamp = 5)) :=
  C7_reset_semantics c5SaturatedState 5 3 (by norm_num) (by norm_num) (by norm_num)

/-!
## C9: the layered counter cascade
-/

/-- C9: in a call that takes the counter path (`ts ≤ state.timestamp ≤
ts + allowance`), `counter_lo` is incremented; on overflow it resets to 0
and `counter_hi` is incremented; on `counter_hi` overflow, `counter_hi`
resets to 0, the timestamp is incremented by exactly 1, and `counter_lo` is
re-drawn from the random source masked to 24 bits. -/
theorem C9_counter_cascade (g : GeneratorState) (ts ra : Nat)
    (h1 : 1 ≤ ts) (h2 : ts ≤ 2 ^ 48 - 1) (h3 : ra ≤ 2 ^ 48 - 1)
    (hgt : g.timestamp ≤ 2 ^ 48 - 1)
    (hch : g.counterHi ≤ 2 ^ 24 - 1) (hcl : g.counterLo ≤ 2 ^ 24 - 1)
    (hts : ts ≤ g.timestamp) (hra : g.timestamp ≤ ts + ra) :
    GenerateOrAbortCore g ts ra = refreshAndFinalize (counterIncrement g)
    ∧ (g.counterLo < 2 ^ 24 - 1 →
        counterIncrement g = { g with counterLo := g.counterLo + 1 })
    ∧ (g.counterLo = 2 ^ 24 - 1 → g.counterHi < 2 ^ 24 - 1 →
        counterIncrement g = { g with counterLo := 0, counterHi := g.counterHi + 1 })
    ∧ (g.counterLo = 2 ^ 24 - 1 → g.counterHi = 2 ^ 24 - 1 →
        counterIncrement g =
          { g with counterLo := (g.rng.getD g.pos 0) % 2 ^ 32 &&& maxCounterLo,
                   counterHi := 0,
                   timestamp := g.timestamp + 1,
                   pos := g.pos + 1 }) := by
  have hmax : maxTimestamp = 2 ^ 48 - 1 := rfl
  refine ⟨?_, ?_, ?_, ?_⟩
  · apply abort_branch_counter g ts ra (by omega) (by omega) (by omega)
    rw [Nat.mod_eq_of_lt (show ts + ra < 2 ^ 64 by omega)]
    omega
  · intro hlo
    apply counterIncrement_case1
    unfold maxCounterLo
    omega
  · intro hlo hhi
    apply counterIncrement_case2
    · unfold maxCounterLo
      omega
    · unfold maxCounterHi
      omega
  · intro hlo hhi
    rw [counterIncrement_case3 g (by unfold maxCounterLo; omega)
      (by unfold maxCounterHi; omega)]
    rw [Nat.mod_eq_of_lt (show g.timestamp + 1 < 2 ^ 64 by omega)]

/-- A small in-domain state on the counter path, for the C9 witness. -/
def c9State : GeneratorState :=
  { timestamp := 50, counterHi := 7, counterLo := 9, tsCounterHi := 50,
    rng := [3], pos := 0 }

theorem C9_counter_cascade_witness :
    GenerateOrAbortCore c9State 50 0 = refreshAndFinalize (counterIncrement c9State)
    ∧ (c9State.counterLo < 2 ^ 24 - 1 →
        counterIncrement c9State = { c9State with counterLo := c9State.counterLo + 1 })
    ∧ (c9State.counterLo = 2 ^ 24 - 1 → c9State.counterHi < 2 ^ 24 - 1 →
        counterIncrement c9State
          = { c9State with counterLo := 0, counterHi := c9State.counterHi + 1 })
    ∧ (c9State.counterLo = 2 ^ 24 - 1 → c9State.counterHi = 2 ^ 24 - 1 →
        counterIncrement c9State
          = { c9State with
                counterLo := (c9State.rng.getD c9State.pos 0) % 2 ^ 32 &&& maxCounterLo,
                counterHi := 0,
                timestamp := c9State.timestamp + 1,
                pos := c9State.pos + 1 }) :=
  C9_counter_cascade c9State 50 0 (by norm_num) (by norm_num) (by norm_num)
    (by norm_num [c9State]) (by norm_num [c9State]) (by norm_num [c9State])
    (by norm_num [c9State]) (by norm_num [c9State])

/-!
## C10: reachable-state invariants and the refresh-step subtraction
-/

/-- The state-domain invariant maintained by the generator. -/
def InvR (g : GeneratorState) : Prop :=
  g.counterHi ≤ maxCounterHi ∧ g.counterLo ≤ maxCounterLo
  ∧ g.tsCounterHi ≤ g.timestamp ∧ g.timestamp ≤ maxTimestamp

/-- Generator states reachable from a fresh generator by the core calls
with in-domain arguments (including calls that return the rollback
error). -/
inductive Reachable : GeneratorState → Prop where
  | init (rng : List Nat) : Reachable (NewGeneratorWithRng rng)
  | abortOk (g : GeneratorState) (ts ra : Nat) (id : Id) (g1 : GeneratorState) :
      Reachable g → 1 ≤ ts → ts ≤ maxTimestamp → ra ≤ maxTimestamp →
      GenerateOrAbortCore g ts ra = .ok id g1 → Reachable g1
  | abortRb (g : GeneratorState) (ts ra : Nat) (g1 : GeneratorState) :
      Reachable g → 1 ≤ ts → ts ≤ maxTimestamp → ra ≤ maxTimestamp →
      GenerateOrAbortCore g ts ra = .rollbackErr g1 → Reachable g1
  | resetOk (g : GeneratorState) (ts ra : Nat) (id : Id) (g1 : GeneratorState) :
      Reachable g → 1 ≤ ts → ts ≤ maxTimestamp → ra ≤ maxTimestamp →
      GenerateOrResetCore g ts ra = .ok id g1 → Reachable g1
  | resetRb (g : GeneratorState) (ts ra : Nat) (g1 : GeneratorState) :
      Reachable g → 1 ≤ ts → ts ≤ maxTimestamp → ra ≤ maxTimestamp →
      GenerateOrResetCore g ts ra = .rollbackErr g1 → Reachable g1

theorem FromFields_bounds (t h l e : Nat) (id : Id) (heq : FromFields t h l e = some id) :
    t ≤ maxTimestamp ∧ h ≤ maxCounterHi ∧ l ≤ maxCounterLo := by
  have : (FromFields t h l e).isSome = true := by rw [heq]; rfl
  exact (FromFields_isSome_iff t h l e).mp this

/-- The fields of the state carried by a successful `refreshAndFinalize`. -/
theorem refreshAndFinalize_ok_state (g : GeneratorState) (id : Id) (g1 : GeneratorState)
    (h : refreshAndFinalize g = .ok id g1) :
    g1.timestamp = g.timestamp ∧ g1.counterLo = g.counterLo ∧ g1.rng = g.rng
    ∧ (g1.tsCounterHi = g.tsCounterHi ∨ g1.tsCounterHi = g.timestamp)
    ∧ g1.timestamp ≤ maxTimestamp ∧ g1.counterHi ≤ maxCounterHi
    ∧ g1.counterLo ≤ maxCounterLo := by
  by_cases hcond : (2 ^ 64 + g.timestamp - g.tsCounterHi) % 2 ^ 64 ≥ 1000 ∨ g.tsCounterHi = 0
  · rw [refreshAndFinalize_refresh g hcond] at h
    cases hff : FromFields g.timestamp ((g.rng.getD g.pos 0) % 2 ^ 32 &&& maxCounterHi)
        g.counterLo ((g.rng.getD (g.pos + 1) 0) % 2 ^ 32) with
    | none => rw [hff] at h; cases h
    | some id2 =>
      rw [hff] at h
      obtain ⟨hb1, hb2, hb3⟩ := FromFields_bounds _ _ _ _ _ hff
      cases h
      exact ⟨rfl, rfl, rfl, Or.inr rfl, hb1, hb2, hb3⟩
  · rw [refreshAndFinalize_norefresh g hcond] at h
    cases hff : FromFields g.timestamp g.counterHi g.counterLo
        ((g.rng.getD g.pos 0) % 2 ^ 32) with
    | none => rw [hff] at h; cases h
    | some id2 =>
      rw [hff] at h
      obtain ⟨hb1, hb2, hb3⟩ := FromFields_bounds _ _ _ _ _ hff
      cases h
      exact ⟨rfl, rfl, rfl, Or.inl rfl, hb1, hb2, hb3⟩

/-- `counterIncrement` never touches `tsCounterHi` and moves the timestamp
forward by at most one tick. -/
theorem counterIncrement_tsC (g : GeneratorState) :
    (counterIncrement g).tsCounterHi = g.tsCounterHi
    ∧ ((counterIncrement g).timestamp = g.timestamp
        ∨ (counterIncrement g).timestamp = (g.timestamp + 1) % 2 ^ 64) := by
  unfold counterIncrement randomUint32
  by_cases h1 : ({ g with counterLo := (g.counterLo + 1) % 2 ^ 32 } : GeneratorState).counterLo
      > maxCounterLo
  · rw [if_pos h1]
    dsimp only
    by_cases h2 : (g.counterHi + 1) % 2 ^ 32 > maxCounterHi
    · rw [if_pos h2]
      exact ⟨rfl, Or.inr rfl⟩
    · rw [if_neg h2]
      exact ⟨rfl, Or.inl rfl⟩
  · rw [if_neg h1]
    exact ⟨rfl, Or.inl rfl⟩

theorem InvR_preserved_abort (g : GeneratorState) (ts ra : Nat) (hInv : InvR g) :
    (∀ id g1, GenerateOrAbortCore g ts ra = .ok id g1 → InvR g1)
    ∧ (∀ g1, GenerateOrAbortCore g ts ra = .rollbackErr g1 → InvR g1) := by
  obtain ⟨hch, hcl, hsub, hts⟩ := hInv
  constructor
  · intro id g1 hok
    by_cases h1 : ts = 0 ∨ ts > maxTimestamp
    · unfold GenerateOrAbortCore at hok
      rw [if_pos h1] at hok
      cases hok
    · by_cases h2 : ra > maxTimestamp
      · unfold GenerateOrAbortCore at hok
        rw [if_neg h1, if_pos h2] at hok
        cases hok
      · by_cases h3 : ts > g.timestamp
        · rw [abort_branch_new g ts ra h1 h2 h3] at hok
          obtain ⟨e1, e2, e3, e4, e5, e6, e7⟩ := refreshAndFinalize_ok_state _ _ _ hok
          refine ⟨e6, e7, ?_, e5⟩
          rcases e4 with hcase | hcase
          · rw [hcase, e1]
            show g.tsCounterHi ≤ ts
            omega
          · rw [hcase, e1]
        · by_cases h4 : (ts + ra) % 2 ^ 64 ≥ g.timestamp
          · rw [abort_branch_counter g ts ra h1 h2 h3 h4] at hok
            obtain ⟨e1, e2, e3, e4, e5, e6, e7⟩ := refreshAndFinalize_ok_state _ _ _ hok
            obtain ⟨f1, f2⟩ := counterIncrement_tsC g
            refine ⟨e6, e7, ?_, e5⟩
            have hmod : (g.timestamp + 1) % 2 ^ 64 = g.timestamp + 1 :=
              Nat.mod_eq_of_lt (by unfold maxTimestamp at hts; omega)
            rcases e4 with hcase | hcase
            · rw [hcase, e1, f1]
              rcases f2 with hf | hf
              · rw [hf]; exact hsub
              · rw [hf, hmod]; omega
            · rw [hcase, e1]
          · unfold GenerateOrAbortCore at hok
            rw [if_neg h1, if_neg h2, if_neg h3, if_neg h4] at hok
            cases hok
  · intro g1 hrb
    have := abort_rollback_state g ts ra g1 hrb
    subst this
    exact ⟨hch, hcl, hsub, hts⟩

theorem InvR_reset_state (g : GeneratorState) (hInv : InvR g) :
    InvR { g with timestamp := 0, tsCounterHi := 0 } := by
  obtain ⟨hch, hcl, _, _⟩ := hInv
  exact ⟨hch, hcl, Nat.le_refl 0, by show (0:Nat) ≤ maxTimestamp; omega⟩

theorem InvR_preserved_reset (g : GeneratorState) (ts ra : Nat) (hInv : InvR g) :
    (∀ id g1, GenerateOrResetCore g ts ra = .ok id g1 → InvR g1)
    ∧ (∀ g1, GenerateOrResetCore g ts ra = .rollbackErr g1 → InvR g1) := by
  obtain ⟨hab1, hab2⟩ := InvR_preserved_abort g ts ra hInv
  constructor
  · intro id g1 hok
    unfold GenerateOrResetCore at hok
    cases habort : GenerateOrAbortCore g ts ra with
    | ok id2 g2 =>
      rw [habort] at hok
      cases hok
      exact hab1 _ _ habort
    | panicked =>
      rw [habort] at hok
      cases hok
    | rollbackErr g2 =>
      rw [habort] at hok
      have hg2 : g2 = g := abort_rollback_state g ts ra g2 habort
      subst hg2
      obtain ⟨hr1, _⟩ := InvR_preserved_abort { g2 with timestamp := 0, tsCounterHi := 0 }
        ts ra (InvR_reset_state g2 ⟨hInv.1, hInv.2.1, hInv.2.2.1, hInv.2.2.2⟩)
      exact hr1 _ _ hok
  · intro g1 hrb
    unfold GenerateOrResetCore at hrb
    cases habort : GenerateOrAbortCore g ts ra with
    | ok id2 g2 =>
      rw [habort] at hrb
      cases hrb
    | panicked =>
      rw [habort] at hrb
      cases hrb
    | rollbackErr g2 =>
      rw [habort] at hrb
      have hg2 : g2 = g := abort_rollback_state g ts ra g2 habort
      subst hg2
      obtain ⟨_, hr2⟩ := InvR_preserved_abort { g2 with timestamp := 0, tsCounterHi := 0 }
        ts ra (InvR_reset_state g2 ⟨hInv.1, hInv.2.1, hInv.2.2.1, hInv.2.2.2⟩)
      exact hr2 _ hrb

theorem InvR_init (rng : List Nat) : InvR (NewGeneratorWithRng rng) := by
  refine ⟨?_, ?_, Nat.le_refl 0, ?_⟩
  · show (0:Nat) ≤ maxCounterHi; omega
  · show (0:Nat) ≤ maxCounterLo; omega
  · show (0:Nat) ≤ maxTimestamp; omega

theorem Reachable_InvR (g : GeneratorState) (h : Reachable g) : InvR g := by
  induction h with
  | init rng => exact InvR_init rng
  | abortOk g ts ra id g1 _ _ _ _ hok ih =>
    exact (InvR_preserved_abort g ts ra ih).1 id g1 hok
  | abortRb g ts ra g1 _ _ _ _ hrb ih =>
    exact (InvR_preserved_abort g ts ra ih).2 g1 hrb
  | resetOk g ts ra id g1 _ _ _ _ hok ih =>
    exact (InvR_preserved_reset g ts ra ih).1 id g1 hok
  | resetRb g ts ra g1 _ _ _ _ hrb ih =>
    exact (InvR_preserved_reset g ts ra ih).2 g1 hrb

/-- When `tsCounterHi ≤ timestamp` (no underflow), the wrapping uint64
subtraction in the refresh condition equals the plain subtraction, so the
two refresh variants coincide. -/
theorem refreshAndFinalizeT_eq (g : GeneratorState)
    (hsub : g.tsCounterHi ≤ g.timestamp) (hlt : g.timestamp < 2 ^ 64) :
    refreshAndFinalizeT g = refreshAndFinalize g := by
  have hmod : (2 ^ 64 + g.timestamp - g.tsCounterHi) % 2 ^ 64
      = g.timestamp - g.tsCounterHi := by omega
  unfold refreshAndFinalizeT refreshAndFinalize
  rw [hmod]

theorem abortT_branch_new (g : GeneratorState) (ts ra : Nat)
    (h1 : ¬(ts = 0 ∨ ts > maxTimestamp)) (h2 : ¬ra > maxTimestamp)
    (h3 : ts > g.timestamp) :
    GenerateOrAbortCoreT g ts ra
      = refreshAndFinalizeT
          { g with timestamp := ts,
                   counterLo := (g.rng.getD g.pos 0) % 2 ^ 32 &&& maxCounterLo,
                   pos := g.pos + 1 } := by
  unfold GenerateOrAbortCoreT randomUint32
  rw [if_neg h1, if_neg h2, if_pos h3]

theorem abortT_branch_counter (g : GeneratorState) (ts ra : Nat)
    (h1 : ¬(ts = 0 ∨ ts > maxTimestamp)) (h2 : ¬ra > maxTimestamp)
    (h3 : ¬ts > g.timestamp) (h4 : (ts + ra) % 2 ^ 64 ≥ g.timestamp) :
    GenerateOrAbortCoreT g ts ra = refreshAndFinalizeT (counterIncrement g) := by
  unfold GenerateOrAbortCoreT
  rw [if_neg h1, if_neg h2, if_neg h3, if_pos h4]

theorem abortT_branch_rollback (g : GeneratorState) (ts ra : Nat)
    (h1 : ¬(ts = 0 ∨ ts > maxTimestamp)) (h2 : ¬ra > maxTimestamp)
    (h3 : ¬ts > g.timestamp) (h4 : ¬(ts + ra) % 2 ^ 64 ≥ g.timestamp) :
    GenerateOrAbortCoreT g ts ra = .rollbackErr g := by
  unfold GenerateOrAbortCoreT
  rw [if_neg h1, if_neg h2, if_neg h3, if_neg h4]

theorem abortT_eq (g : GeneratorState) (ts ra : Nat)
    (hsub : g.tsCounterHi ≤ g.timestamp) (hts : g.timestamp ≤ maxTimestamp) :
    GenerateOrAbortCoreT g ts ra = GenerateOrAbortCore g ts ra := by
  by_cases h1 : ts = 0 ∨ ts > maxTimestamp
  · unfold GenerateOrAbortCoreT GenerateOrAbortCore
    rw [if_pos h1, if_pos h1]
  · by_cases h2 : ra > maxTimestamp
    · unfold GenerateOrAbortCoreT GenerateOrAbortCore
      rw [if_neg h1, if_neg h1, if_pos h2, if_pos h2]
    · by_cases h3 : ts > g.timestamp
      · rw [abortT_branch_new g ts ra h1 h2 h3, abort_branch_new g ts ra h1 h2 h3]
        apply refreshAndFinalizeT_eq
        · show g.tsCounterHi ≤ ts
          omega
        · show ts < 2 ^ 64
          unfold maxTimestamp at h1
          omega
      · by_cases h4 : (ts + ra) % 2 ^ 64 ≥ g.timestamp
        · rw [abortT_branch_counter g ts ra h1 h2 h3 h4,
            abort_branch_counter g ts ra h1 h2 h3 h4]
          obtain ⟨f1, f2⟩ := counterIncrement_tsC g
          apply refreshAndFinalizeT_eq
          · rw [f1]
            rcases f2 with hf | hf
            · rw [hf]; exact hsub
            · rw [hf]
              have : (g.timestamp + 1) % 2 ^ 64 = g.timestamp + 1 :=
                Nat.mod_eq_of_lt (by unfold maxTimestamp at hts; omega)
              omega
          · rcases f2 with hf | hf
            · rw [hf]
              unfold maxTimestamp at hts
              omega
            · rw [hf]
              exact Nat.mod_lt _ (by norm_num)
        · rw [abortT_branch_rollback g ts ra h1 h2 h3 h4,
            abort_branch_rollback g ts ra h1 h2 h3 h4]

theorem resetT_eq (g : GeneratorState) (ts ra : Nat)
    (hsub : g.tsCounterHi ≤ g.timestamp) (hts : g.timestamp ≤ maxTimestamp) :
    GenerateOrResetCoreT g ts ra = GenerateOrResetCore g ts ra := by
  unfold GenerateOrResetCoreT GenerateOrResetCore
  rw [abortT_eq g ts ra hsub hts]
  cases habort : GenerateOrAbortCore g ts ra with
  | ok id g1 => rfl
  | panicked => rfl
  | rollbackErr g1 =>
    have hg1 : g1 = g := abort_rollback_state g ts ra g1 habort
    subst hg1
    show GenerateOrAbortCoreT { g1 with timestamp := 0, tsCounterHi := 0 } ts ra
        = GenerateOrAbortCore { g1 with timestamp := 0, tsCounterHi := 0 } ts ra
    apply abortT_eq
    · show (0:Nat) ≤ 0
      exact Nat.le_refl 0
    · show (0:Nat) ≤ maxTimestamp
      unfold maxTimestamp
      omega

/-- C10: from the zeroed initial state, every core call — returning an ID
or an error — keeps `counter_hi` and `counter_lo` within 24 bits and
`tsCounterHi ≤ timestamp`; consequently the wrapping uint64 subtraction in
the `counter_hi` refresh condition never underflows: both core generators
compute exactly the same results with a truncated subtraction. -/
theorem C10_reachable_invariant (g : GeneratorState) (h : Reachable g) :
    g.counterHi ≤ 2 ^ 24 - 1 ∧ g.counterLo ≤ 2 ^ 24 - 1 ∧ g.tsCounterHi ≤ g.timestamp
    ∧ ∀ ts ra, GenerateOrAbortCoreT g ts ra = GenerateOrAbortCore g ts ra
        ∧ GenerateOrResetCoreT g ts ra = GenerateOrResetCore g ts ra := by
  obtain ⟨h1, h2, h3, h4⟩ := Reachable_InvR g h
  refine ⟨by unfold maxCounterHi at h1; omega, by unfold maxCounterLo at h2; omega, h3, ?_⟩
  intro ts ra
  exact ⟨abortT_eq g ts ra h3 h4, resetT_eq g ts ra h3 h4⟩

theorem C10_reachable_invariant_witness :
    (NewGeneratorWithRng [42]).counterHi ≤ 2 ^ 24 - 1
    ∧ (NewGeneratorWithRng [42]).counterLo ≤ 2 ^ 24 - 1
    ∧ (NewGeneratorWithRng [42]).tsCounterHi ≤ (NewGeneratorWithRng [42]).timestamp
    ∧ ∀ ts ra, GenerateOrAbortCoreT (NewGeneratorWithRng [42]) ts ra
          = GenerateOrAbortCore (NewGeneratorWithRng [42]) ts ra
        ∧ GenerateOrResetCoreT (NewGeneratorWithRng [42]) ts ra
          = GenerateOrResetCore (NewGeneratorWithRng [42]) ts ra :=
  C10_reachable_invariant (NewGeneratorWithRng [42]) (Reachable.init [42])

/-!
## C1: strict monotonicity of successful runs
-/

/-- The (timestamp, counter_hi, counter_lo) triple of a state, packed as an
integer so that lexicographic growth is numeric growth. -/
def tripleVal (g : GeneratorState) : Nat :=
  (g.timestamp * 2 ^ 24 + g.counterHi) * 2 ^ 24 + g.counterLo

/-- Full characterization of a successful `refreshAndFinalize`: the result
state, the ID fields, and which refresh branch ran. -/
theorem refreshAndFinalize_ok_spec (g : GeneratorState) (id : Id) (g1 : GeneratorState)
    (h : refreshAndFinalize g = .ok id g1) :
    g1.timestamp = g.timestamp ∧ g1.counterLo = g.counterLo ∧ g1.rng = g.rng
    ∧ g1.timestamp ≤ maxTimestamp ∧ g1.counterHi ≤ maxCounterHi
    ∧ g1.counterLo ≤ maxCounterLo
    ∧ id.WF ∧ id.Timestamp = g1.timestamp ∧ id.CounterHi = g1.counterHi
    ∧ id.CounterLo = g1.counterLo
    ∧ ((¬((2 ^ 64 + g.timestamp - g.tsCounterHi) % 2 ^ 64 ≥ 1000 ∨ g.tsCounterHi = 0)
          ∧ g1.tsCounterHi = g.tsCounterHi ∧ g1.counterHi = g.counterHi)
       ∨ (((2 ^ 64 + g.timestamp - g.tsCounterHi) % 2 ^ 64 ≥ 1000 ∨ g.tsCounterHi = 0)
          ∧ g1.tsCounterHi = g.timestamp)) := by
  by_cases hcond : (2 ^ 64 + g.timestamp - g.tsCounterHi) % 2 ^ 64 ≥ 1000 ∨ g.tsCounterHi = 0
  · rw [refreshAndFinalize_refresh g hcond] at h
    cases hff : FromFields g.timestamp ((g.rng.getD g.pos 0) % 2 ^ 32 &&& maxCounterHi)
        g.counterLo ((g.rng.getD (g.pos + 1) 0) % 2 ^ 32) with
    | none => rw [hff] at h; cases h
    | some id2 =>
      rw [hff] at h
      obtain ⟨hb1, hb2, hb3⟩ := FromFields_bounds _ _ _ _ _ hff
      cases h
      refine ⟨rfl, rfl, rfl, hb1, hb2, hb3, FromFields_WF _ _ _ _ _ hff,
        Timestamp_FromFields _ _ _ _ hb1 hb2 hb3 _ hff,
        CounterHi_FromFields _ _ _ _ hb1 hb2 hb3 _ hff,
        CounterLo_FromFields _ _ _ _ hb1 hb2 hb3 _ hff,
        Or.inr ⟨hcond, rfl⟩⟩
  · rw [refreshAndFinalize_norefresh g hcond] at h
    cases hff : FromFields g.timestamp g.counterHi g.counterLo
        ((g.rng.getD g.pos 0) % 2 ^ 32) with
    | none => rw [hff] at h; cases h
    | some id2 =>
      rw [hff] at h
      obtain ⟨hb1, hb2, hb3⟩ := FromFields_bounds _ _ _ _ _ hff
      cases h
      refine ⟨rfl, rfl, rfl, hb1, hb2, hb3, FromFields_WF _ _ _ _ _ hff,
        Timestamp_FromFields _ _ _ _ hb1 hb2 hb3 _ hff,
        CounterHi_FromFields _ _ _ _ hb1 hb2 hb3 _ hff,
        CounterLo_FromFields _ _ _ _ hb1 hb2 hb3 _ hff,
        Or.inl ⟨hcond, rfl, rfl⟩⟩

/-- A strictly larger (timestamp, counter_hi, counter_lo) triple makes the
whole 128-bit value strictly larger, whatever the entropies: `Cmp` is -1. -/
theorem Cmp_neg_one_of_triple_lt (prev id : Id) (hw1 : prev.WF) (hw2 : id.WF)
    (h : (prev.Timestamp * 2 ^ 24 + prev.CounterHi) * 2 ^ 24 + prev.CounterLo
       < (id.Timestamp * 2 ^ 24 + id.CounterHi) * 2 ^ 24 + id.CounterLo) :
    prev.Cmp id = -1 := by
  obtain ⟨hv1, ht1, hh1, hl1, he1⟩ := idVal_decompose prev hw1
  obtain ⟨hv2, ht2, hh2, hl2, he2⟩ := idVal_decompose id hw2
  have hlt : idVal prev < idVal id := by
    rw [hv1, hv2]
    omega
  unfold Id.Cmp
  rw [bytesCompare_spec prev.bytes id.bytes (by rw [hw1.1, hw2.1]) hw1.2 hw2.2]
  unfold idVal at hlt
  rw [if_pos hlt]

/-- The invariant maintained between successful calls of a single
generator: in-domain fields, and a `counter_hi` refresh that is never due
at the next call unless the timestamp moves. -/
def MInv (g : GeneratorState) : Prop :=
  g.counterHi ≤ maxCounterHi ∧ g.counterLo ≤ maxCounterLo
  ∧ g.timestamp ≤ maxTimestamp ∧ 1 ≤ g.tsCounterHi ∧ g.tsCounterHi ≤ g.timestamp
  ∧ g.timestamp - g.tsCounterHi < 1000

/-- The last returned ID carries exactly the state's triple. -/
def FieldsMatch (g : GeneratorState) (prev : Id) : Prop :=
  prev.WF ∧ prev.Timestamp = g.timestamp ∧ prev.CounterHi = g.counterHi
  ∧ prev.CounterLo = g.counterLo

/-- One successful `GenerateOrAbortCore` step from an `MInv` state: the
invariant is maintained, the returned ID carries the new state's triple,
and the packed triple strictly increases. -/
theorem step_mono (g : GeneratorState) (ts ra : Nat) (id : Id) (g1 : GeneratorState)
    (hInv : MInv g) (hok : GenerateOrAbortCore g ts ra = .ok id g1) :
    MInv g1 ∧ FieldsMatch g1 id ∧ tripleVal g < tripleVal g1 := by
  obtain ⟨hch, hcl, hts, htc1, htc2, hgap⟩ := hInv
  have h1 : ¬(ts = 0 ∨ ts > maxTimestamp) := by
    intro hcon
    unfold GenerateOrAbortCore at hok
    rw [if_pos hcon] at hok
    cases hok
  have h2 : ¬ra > maxTimestamp := by
    intro hcon
    unfold GenerateOrAbortCore at hok
    rw [if_neg h1, if_pos hcon] at hok
    cases hok
  have htsmax : g.timestamp ≤ 2 ^ 48 - 1 := by
    unfold maxTimestamp at hts
    omega
  have htsmax2 : ts ≤ 2 ^ 48 - 1 ∧ 1 ≤ ts := by
    unfold maxTimestamp at h1
    omega
  have hch' : g.counterHi ≤ 2 ^ 24 - 1 := by
    unfold maxCounterHi at hch
    omega
  have hcl' : g.counterLo ≤ 2 ^ 24 - 1 := by
    unfold maxCounterLo at hcl
    omega
  by_cases h3 : ts > g.timestamp
  · rw [abort_branch_new g ts ra h1 h2 h3] at hok
    obtain ⟨e1, e2, e3, e4, e5, e6, ew, eid1, eid2, eid3, ec⟩ :=
      refreshAndFinalize_ok_spec _ _ _ hok
    have e1' : g1.timestamp = ts := e1
    have htrip : tripleVal g < tripleVal g1 := by
      unfold tripleVal
      rw [e1']
      have hh1 : g1.counterHi ≥ 0 := Nat.zero_le _
      omega
    refine ⟨?_, ⟨ew, eid1, eid2, eid3⟩, htrip⟩
    rcases ec with ⟨hnc, htceq, _⟩ | ⟨_, htceq⟩
    · have htceq' : g1.tsCounterHi = g.tsCounterHi := htceq
      have hnc' : ¬((2 ^ 64 + ts - g.tsCounterHi) % 2 ^ 64 ≥ 1000
          ∨ g.tsCounterHi = 0) := hnc
      have hmodv : (2 ^ 64 + ts - g.tsCounterHi) % 2 ^ 64 = ts - g.tsCounterHi := by
        omega
      rw [hmodv] at hnc'
      refine ⟨e5, e6, e4, ?_, ?_, ?_⟩
      · rw [htceq']
        omega
      · rw [htceq', e1']
        omega
      · rw [htceq', e1']
        omega
    · have htceq' : g1.tsCounterHi = ts := htceq
      refine ⟨e5, e6, e4, ?_, ?_, ?_⟩
      · rw [htceq']
        omega
      · rw [htceq', e1']
      · rw [htceq', e1']
        omega
  · have h4 : (ts + ra) % 2 ^ 64 ≥ g.timestamp := by
      by_contra hcon
      rw [abort_branch_rollback g ts ra h1 h2 h3 hcon] at hok
      cases hok
    rw [abort_branch_counter g ts ra h1 h2 h3 h4] at hok
    have hmodg : (2 ^ 64 + g.timestamp - g.tsCounterHi) % 2 ^ 64
        = g.timestamp - g.tsCounterHi := by
      omega
    have hcondF : ¬((2 ^ 64 + g.timestamp - g.tsCounterHi) % 2 ^ 64 ≥ 1000
        ∨ g.tsCounterHi = 0) := by
      rw [hmodg]
      omega
    by_cases c1 : g.counterLo < maxCounterLo
    · rw [counterIncrement_case1 g c1] at hok
      obtain ⟨e1, e2, e3, e4, e5, e6, ew, eid1, eid2, eid3, ec⟩ :=
        refreshAndFinalize_ok_spec _ _ _ hok
      have e1' : g1.timestamp = g.timestamp := e1
      have e2' : g1.counterLo = g.counterLo + 1 := e2
      rcases ec with ⟨_, htceq, hcheq⟩ | ⟨hc, _⟩
      · have htceq' : g1.tsCounterHi = g.tsCounterHi := htceq
        have hcheq' : g1.counterHi = g.counterHi := hcheq
        refine ⟨⟨e5, e6, e4, ?_, ?_, ?_⟩, ⟨ew, eid1, eid2, eid3⟩, ?_⟩
        · rw [htceq']
          omega
        · rw [htceq', e1']
          omega
        · rw [htceq', e1']
          omega
        · unfold tripleVal
          rw [e1', e2', hcheq']
          omega
      · exact absurd hc hcondF
    · have hceq : g.counterLo = maxCounterLo := by omega
      by_cases c2 : g.counterHi < maxCounterHi
      · rw [counterIncrement_case2 g hceq c2] at hok
        obtain ⟨e1, e2, e3, e4, e5, e6, ew, eid1, eid2, eid3, ec⟩ :=
          refreshAndFinalize_ok_spec _ _ _ hok
        have e1' : g1.timestamp = g.timestamp := e1
        have e2' : g1.counterLo = 0 := e2
        rcases ec with ⟨_, htceq, hcheq⟩ | ⟨hc, _⟩
        · have htceq' : g1.tsCounterHi = g.tsCounterHi := htceq
          have hcheq' : g1.counterHi = g.counterHi + 1 := hcheq
          refine ⟨⟨e5, e6, e4, ?_, ?_, ?_⟩, ⟨ew, eid1, eid2, eid3⟩, ?_⟩
          · rw [htceq']
            omega
          · rw [htceq', e1']
            omega
          · rw [htceq', e1']
            omega
          · unfold tripleVal
            rw [e1', e2', hcheq']
            unfold maxCounterLo at hceq
            omega
        · exact absurd hc hcondF
      · have hheq : g.counterHi = maxCounterHi := by omega
        rw [counterIncrement_case3 g hceq hheq] at hok
        obtain ⟨e1, e2, e3, e4, e5, e6, ew, eid1, eid2, eid3, ec⟩ :=
          refreshAndFinalize_ok_spec _ _ _ hok
        have hmod1 : (g.timestamp + 1) % 2 ^ 64 = g.timestamp + 1 := by
          omega
        have e1' : g1.timestamp = (g.timestamp + 1) % 2 ^ 64 := e1
        rw [hmod1] at e1'
        have htrip : tripleVal g < tripleVal g1 := by
          unfold tripleVal
          rw [e1']
          omega
        refine ⟨?_, ⟨ew, eid1, eid2, eid3⟩, htrip⟩
        rcases ec with ⟨hnc, htceq, _⟩ | ⟨_, htceq⟩
        · have htceq' : g1.tsCounterHi = g.tsCounterHi := htceq
          have hnc' : ¬((2 ^ 64 + (g.timestamp + 1) % 2 ^ 64 - g.tsCounterHi) % 2 ^ 64
              ≥ 1000 ∨ g.tsCounterHi = 0) := hnc
          rw [hmod1] at hnc'
          have hmodv : (2 ^ 64 + (g.timestamp + 1) - g.tsCounterHi) % 2 ^ 64
              = g.timestamp + 1 - g.tsCounterHi := by
            omega
          rw [hmodv] at hnc'
          refine ⟨e5, e6, e4, ?_, ?_, ?_⟩
          · rw [htceq']
            omega
          · rw [htceq', e1']
            omega
          · rw [htceq', e1']
            omega
        · have htceq' : g1.tsCounterHi = (g.timestamp + 1) % 2 ^ 64 := htceq
          rw [hmod1] at htceq'
          refine ⟨e5, e6, e4, ?_, ?_, ?_⟩
          · rw [htceq']
            omega
          · rw [htceq', e1']
          · rw [htceq', e1']
            omega

/-- The first successful call of a fresh generator (zero `timestamp` and
`ts_counter_hi`) establishes the invariant: the call necessarily takes the
new-timestamp branch and refreshes `counter_hi`. -/
theorem step_first (g : GeneratorState) (ts ra : Nat) (id : Id) (g1 : GeneratorState)
    (h0 : g.timestamp = 0) (h0c : g.tsCounterHi = 0)
    (hok : GenerateOrAbortCore g ts ra = .ok id g1) :
    MInv g1 ∧ FieldsMatch g1 id := by
  have h1 : ¬(ts = 0 ∨ ts > maxTimestamp) := by
    intro hcon
    unfold GenerateOrAbortCore at hok
    rw [if_pos hcon] at hok
    cases hok
  have h2 : ¬ra > maxTimestamp := by
    intro hcon
    unfold GenerateOrAbortCore at hok
    rw [if_neg h1, if_pos hcon] at hok
    cases hok
  have h3 : ts > g.timestamp := by
    rw [h0]
    unfold maxTimestamp at h1
    omega
  rw [abort_branch_new g ts ra h1 h2 h3] at hok
  obtain ⟨e1, e2, e3, e4, e5, e6, ew, eid1, eid2, eid3, ec⟩ :=
    refreshAndFinalize_ok_spec _ _ _ hok
  have e1' : g1.timestamp = ts := e1
  refine ⟨?_, ⟨ew, eid1, eid2, eid3⟩⟩
  rcases ec with ⟨hnc, _, _⟩ | ⟨_, htceq⟩
  · exact absurd (Or.inr h0c) hnc
  · have htceq' : g1.tsCounterHi = ts := htceq
    refine ⟨e5, e6, e4, ?_, ?_, ?_⟩
    · rw [htceq']
      unfold maxTimestamp at h1
      omega
    · rw [htceq', e1']
    · rw [htceq', e1']
      omega

/-- A call of `GenerateOrAbortCore` that returns an ID behaves identically
under `GenerateOrResetCore`. -/
theorem reset_eq_of_abort_ok (g : GeneratorState) (ts ra : Nat) (id : Id)
    (g1 : GeneratorState) (hok : GenerateOrAbortCore g ts ra = .ok id g1) :
    GenerateOrResetCore g ts ra = .ok id g1 := by
  unfold GenerateOrResetCore
  rw [hok]

/-- A successful run of `GenerateOrAbortCore` calls from an invariant state
whose triple is carried by `prev` is reproduced verbatim by
`GenerateOrResetCore`, and the IDs are strictly increasing under `Cmp`,
starting above `prev`. -/
theorem runCalls_mono (calls : List (Nat × Nat)) :
    ∀ g : GeneratorState, MInv g → ∀ prev : Id, FieldsMatch g prev →
    ∀ (ids : List Id) (gf : GeneratorState),
    runCalls GenerateOrAbortCore g calls = some (ids, gf) →
    runCalls GenerateOrResetCore g calls = some (ids, gf)
    ∧ List.Chain' (fun a b => a.Cmp b = -1) (prev :: ids) := by
  induction calls with
  | nil =>
    intro g _ prev _ ids gf hrun
    simp only [runCalls, Option.some.injEq, Prod.mk.injEq] at hrun
    obtain ⟨hids, hgf⟩ := hrun
    subst hids
    subst hgf
    exact ⟨rfl, by simp⟩
  | cons c rest ih =>
    intro g hInv prev hFM ids gf hrun
    cases habort : GenerateOrAbortCore g c.1 c.2 with
    | ok id0 g1 =>
      simp only [runCalls, habort] at hrun
      cases hrest : runCalls GenerateOrAbortCore g1 rest with
      | none =>
        rw [hrest] at hrun
        simp at hrun
      | some p =>
        rw [hrest] at hrun
        simp at hrun
        obtain ⟨hids, hgf⟩ := hrun
        subst hids
        subst hgf
        obtain ⟨hInv1, hFM1, htrip⟩ := step_mono g c.1 c.2 id0 g1 hInv habort
        obtain ⟨hreset, hchain⟩ := ih g1 hInv1 id0 hFM1 p.1 p.2 hrest
        constructor
        · have hreq := reset_eq_of_abort_ok g c.1 c.2 id0 g1 habort
          simp [runCalls, hreq, hreset]
        · rw [List.chain'_cons]
          refine ⟨?_, hchain⟩
          obtain ⟨hpw, hpt, hph, hpl⟩ := hFM
          obtain ⟨h0w, h0t, h0h, h0l⟩ := hFM1
          apply Cmp_neg_one_of_triple_lt prev id0 hpw h0w
          rw [hpt, hph, hpl, h0t, h0h, h0l]
          exact htrip
    | rollbackErr gr =>
      simp only [runCalls, habort] at hrun
      exact Option.noConfusion hrun
    | panicked =>
      simp only [runCalls, habort] at hrun
      exact Option.noConfusion hrun

/-- **C1**: for a single generator over a fixed random source, any
sequence of calls to `GenerateOrAbortCore` in which every call returns an
ID (so each supplied timestamp was within the rollback allowance of the
stored timestamp) produces strictly increasing IDs under `Cmp`, each call
exceeding the immediately preceding one; and `GenerateOrResetCore` run on
the same sequence returns exactly the same IDs and final state. -/
theorem C1_monotonicity (rng : List Nat) (calls : List (Nat × Nat))
    (ids : List Id) (gf : GeneratorState)
    (hrun : runCalls GenerateOrAbortCore (NewGeneratorWithRng rng) calls = some (ids, gf)) :
    runCalls GenerateOrResetCore (NewGeneratorWithRng rng) calls = some (ids, gf)
    ∧ List.Chain' (fun a b => a.Cmp b = -1) ids := by
  cases calls with
  | nil =>
    simp only [runCalls, Option.some.injEq, Prod.mk.injEq] at hrun
    obtain ⟨hids, hgf⟩ := hrun
    subst hids
    subst hgf
    exact ⟨rfl, by simp⟩
  | cons c rest =>
    cases habort : GenerateOrAbortCore (NewGeneratorWithRng rng) c.1 c.2 with
    | ok id0 g1 =>
      simp only [runCalls, habort] at hrun
      cases hrest : runCalls GenerateOrAbortCore g1 rest with
      | none =>
        rw [hrest] at hrun
        simp at hrun
      | some p =>
        rw [hrest] at hrun
        simp at hrun
        obtain ⟨hids, hgf⟩ := hrun
        subst hids
        subst hgf
        obtain ⟨hInv1, hFM1⟩ :=
          step_first (NewGeneratorWithRng rng) c.1 c.2 id0 g1 rfl rfl habort
        obtain ⟨hreset, hchain⟩ := runCalls_mono rest g1 hInv1 id0 hFM1 p.1 p.2 hrest
        constructor
        · have hreq := reset_eq_of_abort_ok (NewGeneratorWithRng rng) c.1 c.2 id0 g1 habort
          simp [runCalls, hreq, hreset]
        · exact hchain
    | rollbackErr gr =>
      simp only [runCalls, habort] at hrun
      exact Option.noConfusion hrun
    | panicked =>
      simp only [runCalls, habort] at hrun
      exact Option.noConfusion hrun

/-- Concrete two-call run used to exercise `C1_monotonicity`. -/
def c1Ids : List Id :=
  [⟨[0, 0, 0, 0, 0, 1, 0, 0, 6, 0, 0, 5, 0, 0, 0, 7]⟩,
   ⟨[0, 0, 0, 0, 0, 1, 0, 0, 6, 0, 0, 6, 0, 0, 0, 8]⟩]

/-- Final state of the concrete two-call run. -/
def c1Gf : GeneratorState :=
  { timestamp := 1, counterHi := 6, counterLo := 6, tsCounterHi := 1, rng := [5, 6, 7, 8], pos := 4 }

/-- `C1_monotonicity` applied to a concrete two-call run. -/
theorem C1_monotonicity_witness :
    runCalls GenerateOrAbortCore (NewGeneratorWithRng [5, 6, 7, 8]) [(1, 0), (1, 0)]
      = some (c1Ids, c1Gf)
    ∧ (runCalls GenerateOrResetCore (NewGeneratorWithRng [5, 6, 7, 8]) [(1, 0), (1, 0)]
        = some (c1Ids, c1Gf)
      ∧ List.Chain' (fun a b => a.Cmp b = -1) c1Ids) :=
  ⟨by decide, C1_monotonicity [5, 6, 7, 8] [(1, 0), (1, 0)] c1Ids c1Gf (by decide)⟩

end Scru128
